import Mathlib

/-!
Shallow embedding of the reiser4 distribution core:

* src/plugin/dst/fsx32.c — the FSX32 weighted distribution table
  (calibrator, fiber machinery, balance_inc / balance_dec / balance_spl,
  the dcx-level operations initv / inc / dec / spl, pack / unpack);
* src/plugin/item/extent_volume_ops.c — the migration decision procedure
  what_to_do and the loop of reiser4_migrate_extent;
* src/volume_ops.c — the busy-flag discipline of the volume-op dispatchers.

Machine integers are modeled as Nat with explicit wrap-around (% 2^64,
% 2^32) where the C arithmetic can wrap.  Array accesses that the C code
performs without bounds checks are modeled as checked accesses returning
Except: an out-of-bounds access (undefined behavior in the C) is an error
value.  The build is modeled with REISER4_DEBUG off: assert() bodies are
not executed (loops whose body is only an assert are dead code and are
omitted).  FSX32_PRECISE is 0 in the source, so the branches guarded by
it are dead and are omitted as well.
-/

namespace Fsx32

/-- Modulus of unsigned 64-bit machine arithmetic. -/
def U64 : Nat := 2 ^ 64

/-- Modulus of unsigned 32-bit machine arithmetic. -/
def U32 : Nat := 2 ^ 32

/-- f 0 + ... + f (n-1) accumulated left to right into a u64 variable,
wrapping at 2^64 on every addition, as a C `for` loop with `sum += f(i)`
does. -/
def sumMod (n : Nat) (f : Nat → Nat) : Nat :=
  (List.range n).foldl (fun a i => (a + f i) % U64) 0

/-- Exact (unbounded) sum f 0 + ... + f (n-1). -/
def sumF (n : Nat) (f : Nat → Nat) : Nat :=
  ((List.range n).map f).sum

theorem sumF_zero (f : Nat → Nat) : sumF 0 f = 0 := rfl

theorem sumF_succ (n : Nat) (f : Nat → Nat) :
    sumF (n + 1) f = sumF n f + f n := by
  simp [sumF, List.range_succ]

theorem le_sumF {i n : Nat} (f : Nat → Nat) (h : i < n) : f i ≤ sumF n f := by
  induction n with
  | zero => omega
  | succ m ih =>
    rw [sumF_succ]
    rcases Nat.lt_succ_iff_lt_or_eq.mp h with h' | h'
    · exact le_trans (ih h') (Nat.le_add_right _ _)
    · subst h'; exact Nat.le_add_left _ _

theorem sumF_le_sumF {n : Nat} {f g : Nat → Nat}
    (h : ∀ i, i < n → f i ≤ g i) : sumF n f ≤ sumF n g := by
  induction n with
  | zero => simp [sumF_zero]
  | succ m ih =>
    rw [sumF_succ, sumF_succ]
    exact Nat.add_le_add (ih fun i hi => h i (Nat.lt_succ_of_lt hi))
      (h m (Nat.lt_succ_self m))

theorem sumF_congr {n : Nat} {f g : Nat → Nat}
    (h : ∀ i, i < n → f i = g i) : sumF n f = sumF n g :=
  Nat.le_antisymm (sumF_le_sumF fun i hi => (h i hi).le)
    (sumF_le_sumF fun i hi => (h i hi).ge)

theorem foldlMod_eq (n : Nat) (f : Nat → Nat) :
    ∀ a, a + sumF n f < U64 →
      (List.range n).foldl (fun a i => (a + f i) % U64) a = a + sumF n f := by
  induction n with
  | zero => intro a _; simp [sumF_zero]
  | succ m ih =>
    intro a ha
    rw [sumF_succ] at ha ⊢
    rw [List.range_succ, List.foldl_append]
    rw [ih a (by omega)]
    simp only [List.foldl_cons, List.foldl_nil]
    rw [Nat.mod_eq_of_lt (by omega)]
    omega

theorem sumMod_eq_sumF {n : Nat} {f : Nat → Nat} (h : sumF n f < U64) :
    sumMod n f = sumF n f := by
  simpa using foldlMod_eq n f 0 (by simpa using h)

/-- Failure modes of the embedded calibrate(): division by a zero
sum (div64_u64 with zero divisor), and the remainder loop running past
the end of the output array (when rest > num the C loop
`for (i = 0; i < rest; i++) ret_el_set(ret, i, ...)` writes out of
bounds). -/
inductive CalErr where
  | divByZero
  | oob
deriving DecidableEq

/-- Embedding of calibrate() from fsx32.c.  All quantities are u64.
`mask` is the modulus of the element store: the callback pair
array32_el_get / array32_el_set truncates stored values to u32
(mask = U32), the 64-bit pair stores full u64 values (mask = U64).

Pass 1 stores floor(val * cap i / S) truncated by the element setter and
accumulates the untruncated u64 quotients into sum_scaled.  Pass 2 adds 1
to the first `rest = val - sum_scaled` (u64 subtraction) entries.  The
result list is expressed as a single map over the index range whose value
is the pass-1 store followed by the conditional pass-2 increment; this is
exactly the per-index effect of the two C loops when rest ≤ num. -/
def calibrate (mask num val : Nat) (cap : Nat → Nat) : Except CalErr (List Nat) :=
  let S := sumMod num cap
  if 0 < num ∧ S = 0 then Except.error CalErr.divByZero
  else
    let res : Nat → Nat := fun i => (val % U64) * (cap i % U64) % U64 / S
    let sscaled := sumMod num res
    let rest := (val % U64 + (U64 - sscaled)) % U64
    if num < rest then Except.error CalErr.oob
    else Except.ok ((List.range num).map fun i =>
      if i < rest then (res i % mask + 1) % mask else res i % mask)

/-- Embedding of calibrate32(): calibrate with the u32 element callbacks. -/
def calibrate32 (num val : Nat) (cap : Nat → Nat) : Except CalErr (List Nat) :=
  calibrate U32 num val cap

/-- Embedding of calibrate64(): calibrate with the u64 element callbacks. -/
def calibrate64 (num val : Nat) (cap : Nat → Nat) : Except CalErr (List Nat) :=
  calibrate U64 num val cap

/-- The specification's description of the calibrator (spec section 4.1):
out i = floor(val * cap i / S) plus one extra unit for each index
i < rest, where rest = val minus the sum of the floors.  Written from the
words of the spec, to be compared with the embedded calibrate. -/
def calExact (num val : Nat) (cap : Nat → Nat) : List Nat :=
  let S := sumF num cap
  let fl : Nat → Nat := fun i => val * cap i / S
  let rest := val - sumF num fl
  (List.range num).map fun i => fl i + if i < rest then 1 else 0

theorem sumF_add (n : Nat) (f g : Nat → Nat) :
    sumF n (fun i => f i + g i) = sumF n f + sumF n g := by
  induction n with
  | zero => rfl
  | succ m ih => rw [sumF_succ, sumF_succ, sumF_succ, ih]; omega

theorem sumF_const (n c : Nat) : sumF n (fun _ => c) = n * c := by
  induction n with
  | zero => simp [sumF_zero]
  | succ m ih => rw [sumF_succ, ih]; ring

theorem sumF_mul_left (n c : Nat) (f : Nat → Nat) :
    sumF n (fun i => c * f i) = c * sumF n f := by
  induction n with
  | zero => simp [sumF_zero]
  | succ m ih => rw [sumF_succ, sumF_succ, ih]; ring

theorem sumF_mul_right (n c : Nat) (f : Nat → Nat) :
    sumF n (fun i => f i * c) = sumF n f * c := by
  induction n with
  | zero => simp [sumF_zero]
  | succ m ih => rw [sumF_succ, sumF_succ, ih]; ring

theorem sumMod_congr {f g : Nat → Nat} {n : Nat} (h : ∀ i, i < n → f i = g i) :
    sumMod n f = sumMod n g := by
  induction n with
  | zero => rfl
  | succ m ih =>
    unfold sumMod
    rw [List.range_succ, List.foldl_append, List.foldl_append]
    have hm : sumMod m f = sumMod m g := ih fun i hi => h i (by omega)
    unfold sumMod at hm
    rw [hm]
    simp only [List.foldl_cons, List.foldl_nil]
    rw [h m (by omega)]

theorem sumF_lt_sumF {n : Nat} {f g : Nat → Nat} (hn : 0 < n)
    (h : ∀ i, i < n → f i < g i) : sumF n f < sumF n g := by
  cases n with
  | zero => omega
  | succ m =>
    rw [sumF_succ, sumF_succ]
    have h1 : sumF m f ≤ sumF m g :=
      sumF_le_sumF fun i hi => (h i (Nat.lt_succ_of_lt hi)).le
    have h2 : f m < g m := h m (Nat.lt_succ_self m)
    omega

/-- Sum of the floors is at most the floor of the sum. -/
theorem sumF_div_le (n S : Nat) (hS : 0 < S) (a : Nat → Nat) :
    sumF n (fun i => a i / S) ≤ sumF n a / S := by
  rw [Nat.le_div_iff_mul_le hS, ← sumF_mul_right]
  exact sumF_le_sumF fun i _ => Nat.div_mul_le_self (a i) S

/-- The sum of the floors misses the exact value by less than one unit
per bucket. -/
theorem lt_sumF_div_add (n S : Nat) (hS : 0 < S) (hn : 0 < n) (a : Nat → Nat) :
    sumF n a < (sumF n (fun i => a i / S) + n) * S := by
  have h : ∀ i, i < n → a i < (a i / S + 1) * S := by
    intro i _
    have hd : S * (a i / S) + a i % S = a i := Nat.div_add_mod (a i) S
    have hm : a i % S < S := Nat.mod_lt _ hS
    calc a i = S * (a i / S) + a i % S := hd.symm
      _ < S * (a i / S) + S := by omega
      _ = (a i / S + 1) * S := by ring
  calc sumF n a < sumF n (fun i => (a i / S + 1) * S) := sumF_lt_sumF hn h
    _ = (sumF n (fun i => a i / S) + n) * S := by
        rw [show (fun i => (a i / S + 1) * S) = fun i => a i / S * S + S by
              funext i; ring]
        rw [sumF_add, sumF_mul_right, sumF_const, Nat.add_mul, Nat.mul_comm n S]

/-- Indicator sum: the first r of n indices, r ≤ n. -/
theorem sumF_indicator {n r : Nat} (h : r ≤ n) :
    sumF n (fun i => if i < r then 1 else 0) = r := by
  induction n with
  | zero =>
    have : r = 0 := by omega
    subst this; rfl
  | succ m ih =>
    rw [sumF_succ]
    by_cases hr : r ≤ m
    · rw [ih hr, if_neg (by omega)]; omega
    · have hrm : r = m + 1 := by omega
      subst hrm
      rw [if_pos (by omega)]
      rw [@sumF_congr m (fun i => if i < m + 1 then 1 else 0) (fun _ => 1)
            (fun i hi => by simp [Nat.lt_succ_of_lt hi])]
      rw [sumF_const]; omega

/-- Core facts about the exact calibration: the floor sum is bounded by
the budget and the remainder fits strictly below the bucket count. -/
theorem calibrate_rest_lt (num val : Nat) (cap : Nat → Nat)
    (h1 : 0 < sumF num cap) :
    sumF num (fun i => val * cap i / sumF num cap) ≤ val ∧
    val < sumF num (fun i => val * cap i / sumF num cap) + num := by
  have hnum : 0 < num := by
    rcases Nat.eq_zero_or_pos num with h | h
    · exfalso; rw [h, sumF_zero] at h1; omega
    · exact h
  have hsum : sumF num (fun i => val * cap i) = val * sumF num cap :=
    sumF_mul_left num val cap
  constructor
  · have h := sumF_div_le num (sumF num cap) h1 (fun i => val * cap i)
    rwa [hsum, Nat.mul_div_cancel val h1] at h
  · have h := lt_sumF_div_add num (sumF num cap) h1 hnum (fun i => val * cap i)
    rw [hsum] at h
    exact Nat.lt_of_mul_lt_mul_right h

/-- Under no-overflow side conditions the embedded calibrate() succeeds
and computes exactly the specified floor-plus-remainder distribution. -/
theorem calibrate_eq_calExact (mask num val : Nat) (cap : Nat → Nat)
    (h1 : 0 < sumF num cap) (h2 : sumF num cap < U64)
    (h3 : ∀ i, i < num → val * cap i < U64)
    (h4 : val < mask) (h5 : mask ≤ U64) :
    calibrate mask num val cap = Except.ok (calExact num val cap) := by
  have hval64 : val < U64 := lt_of_lt_of_le h4 h5
  obtain ⟨hFle, hFlt⟩ := calibrate_rest_lt num val cap h1
  have hSmod : sumMod num cap = sumF num cap := sumMod_eq_sumF h2
  have hres : ∀ i, i < num →
      (val % U64) * (cap i % U64) % U64 / sumMod num cap
        = val * cap i / sumF num cap := by
    intro i hi
    have hci : cap i ≤ sumF num cap := le_sumF cap hi
    rw [hSmod, Nat.mod_eq_of_lt hval64,
        Nat.mod_eq_of_lt (show cap i < U64 by omega),
        Nat.mod_eq_of_lt (h3 i hi)]
  have hfl_le_val : ∀ i, i < num → val * cap i / sumF num cap ≤ val := by
    intro i hi
    have hci : cap i ≤ sumF num cap := le_sumF cap hi
    calc val * cap i / sumF num cap
        ≤ val * sumF num cap / sumF num cap :=
          Nat.div_le_div_right (Nat.mul_le_mul_left val hci)
      _ = val := Nat.mul_div_cancel val h1
  have hsumfl_lt : sumF num (fun i => val * cap i / sumF num cap) < U64 := by
    omega
  have hscaled : sumMod num
      (fun i => (val % U64) * (cap i % U64) % U64 / sumMod num cap)
      = sumF num (fun i => val * cap i / sumF num cap) := by
    rw [sumMod_congr hres]
    exact sumMod_eq_sumF hsumfl_lt
  have hrest : (val % U64
      + (U64 - sumF num (fun i => val * cap i / sumF num cap))) % U64
      = val - sumF num (fun i => val * cap i / sumF num cap) := by
    rw [Nat.mod_eq_of_lt hval64]
    rw [show val + (U64 - sumF num (fun i => val * cap i / sumF num cap))
          = U64 + (val - sumF num (fun i => val * cap i / sumF num cap)) by
        omega]
    rw [Nat.add_mod_left]
    exact Nat.mod_eq_of_lt (by omega)
  simp only [calibrate, calExact]
  rw [if_neg (show ¬ (0 < num ∧ sumMod num cap = 0) by rw [hSmod]; omega)]
  rw [hscaled, hrest]
  rw [if_neg (show
        ¬ num < val - sumF num (fun i => val * cap i / sumF num cap) by
      omega)]
  congr 1
  apply List.map_congr_left
  intro i hi
  rw [List.mem_range] at hi
  rw [hres i hi]
  have hfli : val * cap i / sumF num cap ≤ val := hfl_le_val i hi
  by_cases hir : i < val - sumF num (fun i => val * cap i / sumF num cap)
  · rw [if_pos hir, if_pos hir]
    have hfliF : val * cap i / sumF num cap
        ≤ sumF num (fun i => val * cap i / sumF num cap) :=
      le_sumF (fun i => val * cap i / sumF num cap) hi
    rw [Nat.mod_eq_of_lt (show val * cap i / sumF num cap < mask by omega)]
    rw [Nat.mod_eq_of_lt (show val * cap i / sumF num cap + 1 < mask by omega)]
  · rw [if_neg hir, if_neg hir,
        Nat.mod_eq_of_lt (show val * cap i / sumF num cap < mask by omega)]
    omega

/-- The exact calibration distributes the whole budget. -/
theorem calExact_sum (num val : Nat) (cap : Nat → Nat)
    (h1 : 0 < sumF num cap) :
    (calExact num val cap).sum = val := by
  obtain ⟨hFle, hFlt⟩ := calibrate_rest_lt num val cap h1
  rw [calExact]
  show sumF num _ = val
  rw [sumF_add, sumF_indicator (by omega)]
  omega

/-! ## The table engine: buckets, fibers and the balance operations -/

/-- Bound constants from fsx32.c. -/
def MAX_SHIFT : Nat := 31

def MAX_BUCKETS : Nat := 2 ^ MAX_SHIFT

def MIN_NUMS_BITS : Nat := 10

/-- Abstract bucket as seen through the bucket_ops interface: a 64-bit
brick id, a capacity and a fiber slot. -/
structure Bucket where
  id : Nat
  cap : Nat
  fib : List Nat
deriving DecidableEq

instance : Inhabited Bucket := ⟨⟨0, 0, []⟩⟩

/-- bucket_ops fib_at. -/
def fiber_at (vec : List Bucket) (i : Nat) : List Nat :=
  (vec.getD i default).fib

/-- bucket_ops idx2id. -/
def idx2id (vec : List Bucket) (i : Nat) : Nat :=
  (vec.getD i default).id

/-- bucket_ops cap_at. -/
def cap_at (vec : List Bucket) (i : Nat) : Nat :=
  (vec.getD i default).cap

/-- Failure modes of the embedded table engine.  einval / enospc are
error codes the C functions return.  The remaining constructors mark
accesses the C code performs without a bounds check: performing such an
access out of bounds (or through a NULL pointer) is undefined behavior
in the C and an error value here.  A u32 excess / shortage subtraction
that wraps is reported as underflow: the wrapped count would drive the
subsequent fiber walk out of bounds on its first iteration, since the
fiber only holds the old weight of entries. -/
inductive FsxErr where
  | einval
  | enospc
  | cal (e : CalErr)
  | oobTab
  | oobFib
  | underflow
  | badFibers
  | nullDeref
deriving DecidableEq

/-- u32 subtraction that the source performs on unsigned weights;
a difference that would wrap is reported. -/
def checkedSub (a b : Nat) : Except FsxErr Nat :=
  if b ≤ a then Except.ok (a - b) else Except.error FsxErr.underflow

/-- Bounds-checked fiber (or relocation array) element read. -/
def fibGet (fib : List Nat) (k : Nat) : Except FsxErr Nat :=
  match fib[k]? with
  | some s => Except.ok s
  | none => Except.error FsxErr.oobFib

/-- Bounds-checked system-table element write. -/
def writeTab (tab : List Nat) (s v : Nat) : Except FsxErr (List Nat) :=
  if s < tab.length then Except.ok (tab.set s v) else Except.error FsxErr.oobTab

/-! ## Write lists and the slot-movement count -/

/-- Apply a list of (slot, id) writes to a table in order. -/
def applyWrites (tab : List Nat) (ws : List (Nat × Nat)) : List Nat :=
  ws.foldl (fun t p => t.set p.1 p.2) tab

/-- Number of table slots whose entry differs between two tables of the
same length. -/
def countDiff (a b : List Nat) : Nat :=
  ((List.range a.length).filter fun s => a.getD s 0 ≠ b.getD s 0).length

theorem applyWrites_nil (tab : List Nat) : applyWrites tab [] = tab := rfl

theorem applyWrites_cons (tab : List Nat) (p : Nat × Nat)
    (ws : List (Nat × Nat)) :
    applyWrites tab (p :: ws) = applyWrites (tab.set p.1 p.2) ws := rfl

theorem applyWrites_append (tab : List Nat) (ws1 ws2 : List (Nat × Nat)) :
    applyWrites tab (ws1 ++ ws2) = applyWrites (applyWrites tab ws1) ws2 := by
  simp [applyWrites, List.foldl_append]

theorem applyWrites_length (tab : List Nat) (ws : List (Nat × Nat)) :
    (applyWrites tab ws).length = tab.length := by
  induction ws generalizing tab with
  | nil => rfl
  | cons p rest ih =>
    rw [applyWrites_cons, ih, List.length_set]

theorem applyWrites_getD_of_notMem (tab : List Nat) (ws : List (Nat × Nat))
    (s : Nat) (h : s ∉ ws.map Prod.fst) :
    (applyWrites tab ws).getD s 0 = tab.getD s 0 := by
  induction ws generalizing tab with
  | nil => rfl
  | cons p rest ih =>
    simp only [List.map_cons, List.mem_cons] at h
    push_neg at h
    rw [applyWrites_cons, ih _ h.2]
    simp only [List.getD_eq_getElem?_getD]
    rw [List.getElem?_set_ne (fun hc => h.1 hc.symm)]

theorem applyWrites_getD_of_mem (tab : List Nat) (ws : List (Nat × Nat))
    (s v : Nat) (hmem : (s, v) ∈ ws) (hnodup : (ws.map Prod.fst).Nodup)
    (hlen : s < tab.length) :
    (applyWrites tab ws).getD s 0 = v := by
  induction ws generalizing tab with
  | nil => simp at hmem
  | cons p rest ih =>
    rw [applyWrites_cons]
    rcases List.mem_cons.mp hmem with h | h
    · subst h
      simp only [List.map_cons, List.nodup_cons] at hnodup
      rw [applyWrites_getD_of_notMem _ _ _ hnodup.1]
      simp only [List.getD_eq_getElem?_getD]
      rw [List.getElem?_set_self hlen]
      rfl
    · simp only [List.map_cons, List.nodup_cons] at hnodup
      exact ih _ h hnodup.2 (by rwa [List.length_set])

/-- The movement count: writing through a nodup list of in-range slots,
each with an id different from what the slot held, changes exactly that
many slots. -/
theorem countDiff_applyWrites (tab : List Nat) (ws : List (Nat × Nat))
    (hnodup : (ws.map Prod.fst).Nodup)
    (hlt : ∀ p ∈ ws, p.1 < tab.length)
    (hne : ∀ p ∈ ws, tab.getD p.1 0 ≠ p.2) :
    countDiff tab (applyWrites tab ws) = ws.length := by
  have hdiff : ∀ s, (tab.getD s 0 ≠ (applyWrites tab ws).getD s 0
      ↔ s ∈ ws.map Prod.fst) := by
    intro s
    constructor
    · intro hne'
      by_contra hmem
      exact hne' (applyWrites_getD_of_notMem tab ws s hmem).symm
    · intro hmem
      rcases List.mem_map.mp hmem with ⟨p, hp, hps⟩
      subst hps
      rw [applyWrites_getD_of_mem tab ws p.1 p.2 hp hnodup (hlt p hp)]
      exact hne p hp
  have hperm : ((List.range tab.length).filter
      fun s => tab.getD s 0 ≠ (applyWrites tab ws).getD s 0).Perm
      (ws.map Prod.fst) := by
    rw [List.perm_ext_iff_of_nodup
      (List.Nodup.filter _ (List.nodup_range _)) hnodup]
    intro a
    simp only [List.mem_filter, List.mem_range, decide_eq_true_eq]
    constructor
    · rintro ⟨_, h2⟩
      exact (hdiff a).mp h2
    · intro h
      refine ⟨?_, (hdiff a).mpr h⟩
      rcases List.mem_map.mp h with ⟨p, hp, hps⟩
      subst hps
      exact hlt p hp
  rw [countDiff, hperm.length_eq, List.length_map]

theorem checkedSub_ok {a b c : Nat} (h : checkedSub a b = Except.ok c) :
    b ≤ a ∧ c = a - b := by
  unfold checkedSub at h
  by_cases hab : b ≤ a
  · rw [if_pos hab] at h
    simp only [Except.ok.injEq] at h
    exact ⟨hab, h.symm⟩
  · rw [if_neg hab] at h
    simp at h

theorem fibGet_ok {fib : List Nat} {k s : Nat}
    (h : fibGet fib k = Except.ok s) :
    k < fib.length ∧ fib.getD k 0 = s := by
  unfold fibGet at h
  rcases hx : fib[k]? with _ | y
  · rw [hx] at h; simp at h
  · rw [hx] at h
    simp only [Except.ok.injEq] at h
    subst h
    obtain ⟨hlt, _⟩ := List.getElem?_eq_some_iff.mp hx
    refine ⟨hlt, ?_⟩
    rw [List.getD_eq_getElem?_getD, hx]
    rfl

theorem writeTab_ok {tab : List Nat} {s v : Nat} {tab' : List Nat}
    (h : writeTab tab s v = Except.ok tab') :
    s < tab.length ∧ tab' = tab.set s v := by
  unfold writeTab at h
  by_cases hs : s < tab.length
  · rw [if_pos hs] at h
    simp only [Except.ok.injEq] at h
    exact ⟨hs, h.symm⟩
  · rw [if_neg hs] at h
    simp at h

/-- The writes performed by one stealSeg run: the cnt fiber entries
starting at position pos, each stamped with the target id. -/
def segWrites (fib : List Nat) (tgt pos cnt : Nat) : List (Nat × Nat) :=
  ((fib.drop pos).take cnt).map fun s => (s, tgt)

theorem segWrites_zero (fib : List Nat) (tgt pos : Nat) :
    segWrites fib tgt pos 0 = [] := by
  simp [segWrites]

theorem segWrites_succ (fib : List Nat) (tgt pos c : Nat)
    (h : pos < fib.length) :
    segWrites fib tgt pos (c + 1)
      = (fib.getD pos 0, tgt) :: segWrites fib tgt (pos + 1) c := by
  unfold segWrites
  rw [List.drop_eq_getElem_cons h, List.take_succ_cons, List.map_cons]
  congr 2
  rw [List.getD_eq_getElem?_getD, List.getElem?_eq_getElem h]
  rfl

theorem segWrites_length (fib : List Nat) (tgt pos cnt : Nat)
    (h : pos + cnt ≤ fib.length) :
    (segWrites fib tgt pos cnt).length = cnt := by
  unfold segWrites
  rw [List.length_map, List.length_take_of_le (by simp; omega)]

/-- The fiber of brick id x in table tab: the slots currently mapped to
x, in ascending slot order.  This is what init_fibers_by_tab computes. -/
def canonFiber (tab : List Nat) (x : Nat) : List Nat :=
  (List.range tab.length).filter fun s => tab.getD s 0 = x

/-- Embedding of create_fibers + init_fibers_by_tab: give each of the
numb buckets its canonical fiber.  create_fibers sizes fiber i by
weights[i]; when the table scan finds a different number of matching
slots the C either overruns the allocation (more slots than weight) or
leaves stale zero entries in the tail (fewer); both corrupt states are
reported as badFibers. -/
def create_fibers (tab : List Nat) (numb : Nat) (weights : List Nat)
    (vec : List Bucket) : Except FsxErr (List Bucket) :=
  if ∀ i ∈ List.range numb,
      (canonFiber tab (idx2id vec i)).length = weights.getD i 0
  then Except.ok ((List.range numb).map fun i =>
    ⟨idx2id vec i, cap_at vec i, canonFiber tab (idx2id vec i)⟩)
  else Except.error FsxErr.badFibers

/-- Inner stealing loop of balance_inc: for j in [0, cnt), rewrite
tab[fib[pos + j]] to the target id (fsx32.c:321-330, 357-370, with
REISER4_DEBUG off so the assert-only loop bodies are dead code). -/
def stealSeg (fib : List Nat) (tgt : Nat) :
    Nat → Nat → List Nat → Except FsxErr (List Nat)
  | _, 0, tab => Except.ok tab
  | pos, cnt + 1, tab =>
    match fibGet fib pos with
    | Except.error e => Except.error e
    | Except.ok s =>
      match writeTab tab s tgt with
      | Except.error e => Except.error e
      | Except.ok tab1 => stealSeg fib tgt (pos + 1) cnt tab1

/-- Outer stealing loop of balance_inc over the survivor positions,
paired with the position of each survivor in the old weight vector. -/
def incLoop (vec : List Bucket) (tgt : Nat) (oldW newW : List Nat) :
    List (Nat × Nat) → List Nat → Except FsxErr (List Nat)
  | [], tab => Except.ok tab
  | (i, oi) :: rest, tab =>
    match checkedSub (oldW.getD oi 0) (newW.getD i 0) with
    | Except.error e => Except.error e
    | Except.ok exc =>
      match stealSeg (fiber_at vec i) tgt (newW.getD i 0) exc tab with
      | Except.error e => Except.error e
      | Except.ok tab1 => incLoop vec tgt oldW newW rest tab1

theorem stealSeg_ok {fib : List Nat} {tgt : Nat} :
    ∀ {cnt pos : Nat} {tab tab' : List Nat},
    stealSeg fib tgt pos cnt tab = Except.ok tab' →
    (0 < cnt → pos + cnt ≤ fib.length) ∧
    tab' = applyWrites tab (segWrites fib tgt pos cnt) ∧
    (∀ q ∈ segWrites fib tgt pos cnt, q.1 < tab.length ∧ q.2 = tgt) := by
  intro cnt
  induction cnt with
  | zero =>
    intro pos tab tab' h
    unfold stealSeg at h
    simp only [Except.ok.injEq] at h
    subst h
    refine ⟨by omega, by rw [segWrites_zero]; rfl, ?_⟩
    intro q hq
    rw [segWrites_zero] at hq
    simp at hq
  | succ c ih =>
    intro pos tab tab' h
    unfold stealSeg at h
    split at h
    next e heq => exact absurd h (by simp)
    next s heq =>
      split at h
      next e' heq' => exact absurd h (by simp)
      next tab1 heq' =>
        obtain ⟨hpos, hsval⟩ := fibGet_ok heq
        obtain ⟨hslen, htab1⟩ := writeTab_ok heq'
        obtain ⟨hb, heq2, hq⟩ := ih h
        refine ⟨fun _ => ?_, ?_, ?_⟩
        · rcases Nat.eq_zero_or_pos c with hc | hc
          · omega
          · have := hb hc; omega
        · rw [segWrites_succ fib tgt pos c hpos, applyWrites_cons, heq2,
            htab1, hsval]
        · intro q hq'
          rw [segWrites_succ fib tgt pos c hpos] at hq'
          rcases List.mem_cons.mp hq' with hq1 | hq1
          · subst hq1
            exact ⟨by rwa [hsval], rfl⟩
          · have := hq q hq1
            rw [htab1, List.length_set] at this
            exact this

/-- The combined write list of balance_inc over a survivor list: for
each survivor, the tail of its fiber beyond its new weight, stamped
with the target id. -/
def incWrites (vec : List Bucket) (tgt : Nat) (oldW newW : List Nat) :
    List (Nat × Nat) → List (Nat × Nat)
  | [] => []
  | (i, oi) :: rest =>
    segWrites (fiber_at vec i) tgt (newW.getD i 0)
        (oldW.getD oi 0 - newW.getD i 0)
      ++ incWrites vec tgt oldW newW rest

theorem segWrites_mem {fib : List Nat} {tgt pos cnt : Nat} {q : Nat × Nat}
    (h : q ∈ segWrites fib tgt pos cnt) : q.1 ∈ fib ∧ q.2 = tgt := by
  unfold segWrites at h
  rcases List.mem_map.mp h with ⟨s, hs, hq⟩
  subst hq
  exact ⟨List.mem_of_mem_drop (List.mem_of_mem_take hs), rfl⟩

theorem incWrites_mem {vec : List Bucket} {tgt : Nat} {oldW newW : List Nat} :
    ∀ {pairs : List (Nat × Nat)} {q : Nat × Nat},
    q ∈ incWrites vec tgt oldW newW pairs →
    ∃ p ∈ pairs, q.1 ∈ fiber_at vec p.1 ∧ q.2 = tgt := by
  intro pairs
  induction pairs with
  | nil => intro q hq; simp [incWrites] at hq
  | cons p rest ih =>
    intro q hq
    obtain ⟨i, oi⟩ := p
    unfold incWrites at hq
    rcases List.mem_append.mp hq with hq1 | hq1
    · obtain ⟨hmem, hval⟩ := segWrites_mem hq1
      exact ⟨(i, oi), List.mem_cons_self _ _, hmem, hval⟩
    · obtain ⟨p', hp', hmem, hval⟩ := ih hq1
      exact ⟨p', List.mem_cons_of_mem _ hp', hmem, hval⟩

theorem incLoop_ok {vec : List Bucket} {tgt : Nat} {oldW newW : List Nat} :
    ∀ {pairs : List (Nat × Nat)} {tab tab' : List Nat},
    incLoop vec tgt oldW newW pairs tab = Except.ok tab' →
    (∀ p ∈ pairs, newW.getD p.1 0 ≤ oldW.getD p.2 0) ∧
    tab' = applyWrites tab (incWrites vec tgt oldW newW pairs) ∧
    (∀ q ∈ incWrites vec tgt oldW newW pairs, q.1 < tab.length) ∧
    (incWrites vec tgt oldW newW pairs).length =
      (pairs.map fun p => oldW.getD p.2 0 - newW.getD p.1 0).sum := by
  intro pairs
  induction pairs with
  | nil =>
    intro tab tab' h
    unfold incLoop at h
    simp only [Except.ok.injEq] at h
    subst h
    exact ⟨by simp, rfl, by intro q hq; simp [incWrites] at hq, by
      simp [incWrites]⟩
  | cons p rest ih =>
    intro tab tab' h
    obtain ⟨i, oi⟩ := p
    unfold incLoop at h
    split at h
    next e heq => exact absurd h (by simp)
    next exc heq =>
      split at h
      next e' heq' => exact absurd h (by simp)
      next tab1 heq' =>
        obtain ⟨hle, hexc⟩ := checkedSub_ok heq
        subst hexc
        obtain ⟨hbound, htab1, hseg⟩ := stealSeg_ok heq'
        obtain ⟨hle2, heq2, hlt2, hlen2⟩ := ih h
        have hseg_len : (segWrites (fiber_at vec i) tgt (newW.getD i 0)
            (oldW.getD oi 0 - newW.getD i 0)).length
            = oldW.getD oi 0 - newW.getD i 0 := by
          rcases Nat.eq_zero_or_pos (oldW.getD oi 0 - newW.getD i 0)
            with hc | hc
          · rw [hc, segWrites_zero]; rfl
          · exact segWrites_length _ _ _ _ (hbound hc)
        refine ⟨?_, ?_, ?_, ?_⟩
        · intro p' hp'
          rcases List.mem_cons.mp hp' with h1 | h1
          · subst h1; exact hle
          · exact hle2 p' h1
        · rw [incWrites, applyWrites_append, ← htab1, heq2]
        · intro q hq
          rw [incWrites] at hq
          rcases List.mem_append.mp hq with hq1 | hq1
          · exact (hseg q hq1).1
          · have := hlt2 q hq1
            rw [htab1, applyWrites_length] at this
            exact this
        · rw [incWrites, List.length_append, hseg_len, hlen2,
            List.map_cons, List.sum_cons]

/-- Survivor positions visited by balance_inc, in source order: first
the positions left of target_pos (old position = position), then the
positions right of it (old position = position - 1 when a new bucket
was inserted, identity on a pure re-weight). -/
def incPairs (targetPos newNumb : Nat) (isNew : Bool) : List (Nat × Nat) :=
  ((List.range targetPos).map fun i => (i, i)) ++
    ((List.range' (targetPos + 1) (newNumb - (targetPos + 1))).map
      fun i => (i, if isNew then i - 1 else i))

/-- Embedding of balance_inc (fsx32.c:288-375).  vec is the new bucket
vector; the excess of every survivor (the u32 difference between its
old and new weight) is stolen from the tail of its fiber and rewritten
to the id of the bucket at target_pos.  FSX32_PRECISE is 0, so only the
generic branch is live. -/
def balance_inc (newNumb : Nat) (tab : List Nat) (oldW newW : List Nat)
    (targetPos : Nat) (vec : List Bucket) (isNew : Bool) :
    Except FsxErr (List Nat) :=
  incLoop vec (idx2id vec targetPos) oldW newW
    (incPairs targetPos newNumb isNew) tab

theorem canonFiber_nodup (tab : List Nat) (x : Nat) :
    (canonFiber tab x).Nodup :=
  List.Nodup.filter _ (List.nodup_range _)

theorem canonFiber_mem {tab : List Nat} {x s : Nat} :
    s ∈ canonFiber tab x ↔ s < tab.length ∧ tab.getD s 0 = x := by
  unfold canonFiber
  simp [List.mem_filter, List.mem_range]

/-- Slot lists of distinct write chunks are disjoint when fibers are the
canonical ones of pairwise distinct ids: every slot determines the id
stored there. -/
theorem incWrites_slots_nodup {vec : List Bucket} {tgt : Nat}
    {oldW newW : List Nat} {tab0 : List Nat} :
    ∀ {pairs : List (Nat × Nat)},
    (∀ p ∈ pairs, fiber_at vec p.1 = canonFiber tab0 (idx2id vec p.1)) →
    pairs.Pairwise (fun p q => idx2id vec p.1 ≠ idx2id vec q.1) →
    ((incWrites vec tgt oldW newW pairs).map Prod.fst).Nodup := by
  intro pairs
  induction pairs with
  | nil => intro _ _; simp [incWrites]
  | cons p rest ih =>
    intro hfib hpw
    obtain ⟨i, oi⟩ := p
    have hf := hfib (i, oi) (List.mem_cons_self _ _)
    obtain ⟨hphead, hprest⟩ := List.pairwise_cons.mp hpw
    unfold incWrites
    rw [List.map_append, List.nodup_append]
    refine ⟨?_, ?_, ?_⟩
    · have hmap : (segWrites (fiber_at vec i) tgt (newW.getD i 0)
          (oldW.getD oi 0 - newW.getD i 0)).map Prod.fst
          = ((fiber_at vec i).drop (newW.getD i 0)).take
              (oldW.getD oi 0 - newW.getD i 0) := by
        unfold segWrites
        rw [List.map_map]
        rw [show (Prod.fst ∘ fun s : Nat => (s, tgt)) = fun s : Nat => s
          from rfl]
        exact List.map_id' _
      rw [hmap]
      exact List.Nodup.sublist
        ((List.take_sublist _ _).trans (List.drop_sublist _ _))
        (hf ▸ canonFiber_nodup tab0 (idx2id vec i))
    · exact ih (fun q hq => hfib q (List.mem_cons_of_mem _ hq)) hprest
    · intro a ha1 ha2
      rcases List.mem_map.mp ha1 with ⟨q, hq, hqa⟩
      obtain ⟨hqfib, _⟩ := segWrites_mem hq
      rcases List.mem_map.mp ha2 with ⟨q', hq', hqa'⟩
      obtain ⟨p', hp', hq'fib, _⟩ := incWrites_mem hq'
      have hval : tab0.getD a 0 = idx2id vec i := by
        rw [← hqa]
        exact (canonFiber_mem.mp (hf ▸ hqfib)).2
      have hval' : tab0.getD a 0 = idx2id vec p'.1 := by
        rw [← hqa']
        exact (canonFiber_mem.mp
          (hfib p' (List.mem_cons_of_mem _ hp') ▸ hq'fib)).2
      exact hphead p' hp' (hval ▸ hval')

/-- Characterization of incPairs membership. -/
theorem incPairs_mem {targetPos newNumb : Nat} {isNew : Bool}
    {p : Nat × Nat} (htp : targetPos ≤ newNumb)
    (h : p ∈ incPairs targetPos newNumb isNew) :
    p.1 < newNumb ∧ p.1 ≠ targetPos := by
  unfold incPairs at h
  rcases List.mem_append.mp h with h1 | h1
  · rcases List.mem_map.mp h1 with ⟨i, hi, hp⟩
    rw [List.mem_range] at hi
    subst hp
    constructor
    · omega
    · intro hc; simp at hc; omega
  · rcases List.mem_map.mp h1 with ⟨i, hi, hp⟩
    rw [List.mem_range'_1] at hi
    subst hp
    constructor
    · simp; omega
    · intro hc; simp at hc; omega

/-- The survivor positions listed by incPairs are pairwise distinct. -/
theorem incPairs_fst_nodup (targetPos newNumb : Nat) (isNew : Bool) :
    ((incPairs targetPos newNumb isNew).map Prod.fst).Nodup := by
  unfold incPairs
  rw [List.map_append, List.map_map, List.map_map]
  rw [show (Prod.fst ∘ fun i : Nat => (i, i)) = fun i : Nat => i from rfl]
  rw [show (Prod.fst ∘ fun i : Nat => (i, if isNew then i - 1 else i))
      = fun i : Nat => i from rfl]
  rw [List.map_id', List.map_id', List.nodup_append]
  refine ⟨List.nodup_range _,
    List.nodup_range' (targetPos + 1) (newNumb - (targetPos + 1)), ?_⟩
  intro a ha1 ha2
  rw [List.mem_range] at ha1
  rw [List.mem_range'_1] at ha2
  omega

/-- Distinct positions below the vector length carry distinct ids when
the id list is nodup. -/
theorem idx2id_inj {vec : List Bucket} (hids : (vec.map Bucket.id).Nodup)
    {i j : Nat} (hi : i < vec.length) (hj : j < vec.length) (hij : i ≠ j) :
    idx2id vec i ≠ idx2id vec j := by
  intro hc
  unfold idx2id at hc
  have hi' : i < (vec.map Bucket.id).length := by simpa using hi
  have hj' : j < (vec.map Bucket.id).length := by simpa using hj
  have h1 : (vec.map Bucket.id)[i] = (vec.map Bucket.id)[j] := by
    rw [List.getElem_map, List.getElem_map]
    rw [List.getD_eq_getElem?_getD, List.getElem?_eq_getElem hi] at hc
    rw [List.getD_eq_getElem?_getD, List.getElem?_eq_getElem hj] at hc
    exact hc
  exact hij ((List.Nodup.getElem_inj_iff hids).mp h1)

/-- Movement count of a successful balance_inc: with canonical fibers
and pairwise distinct brick ids, the number of slots whose id changed is
the total excess of the survivors. -/
theorem balance_inc_count {newNumb : Nat} {tab : List Nat}
    {oldW newW : List Nat} {targetPos : Nat} {vec : List Bucket}
    {isNew : Bool} {tab' : List Nat}
    (hok : balance_inc newNumb tab oldW newW targetPos vec isNew
      = Except.ok tab')
    (hids : (vec.map Bucket.id).Nodup)
    (hlen : newNumb ≤ vec.length)
    (htp : targetPos < newNumb)
    (hfib : ∀ p ∈ incPairs targetPos newNumb isNew,
        fiber_at vec p.1 = canonFiber tab (idx2id vec p.1)) :
    countDiff tab tab' =
      ((incPairs targetPos newNumb isNew).map
        fun p => oldW.getD p.2 0 - newW.getD p.1 0).sum := by
  unfold balance_inc at hok
  obtain ⟨hle, heq, hlt, hlength⟩ := incLoop_ok hok
  have hpw : (incPairs targetPos newNumb isNew).Pairwise
      (fun p q => idx2id vec p.1 ≠ idx2id vec q.1) := by
    have hnd : (incPairs targetPos newNumb isNew).Pairwise
        (fun p q => p.1 ≠ q.1) :=
      List.pairwise_map.mp (incPairs_fst_nodup targetPos newNumb isNew)
    refine hnd.imp_of_mem ?_
    intro p q hp hq hne
    obtain ⟨hp1, _⟩ := incPairs_mem (by omega) hp
    obtain ⟨hq1, _⟩ := incPairs_mem (by omega) hq
    exact idx2id_inj hids (by omega) (by omega) hne
  have htgt : ∀ p ∈ incPairs targetPos newNumb isNew,
      idx2id vec p.1 ≠ idx2id vec targetPos := by
    intro p hp
    obtain ⟨h1, h2⟩ := incPairs_mem (by omega) hp
    exact idx2id_inj hids (by omega) (by omega) h2
  have hnodup := @incWrites_slots_nodup vec (idx2id vec targetPos) oldW newW
    tab (incPairs targetPos newNumb isNew) hfib hpw
  have hne : ∀ q ∈ incWrites vec (idx2id vec targetPos) oldW newW
      (incPairs targetPos newNumb isNew), tab.getD q.1 0 ≠ q.2 := by
    intro q hq
    obtain ⟨p, hp, hqfib, hqval⟩ := incWrites_mem hq
    rw [hqval]
    have := (canonFiber_mem.mp (hfib p hp ▸ hqfib)).2
    rw [this]
    exact htgt p hp
  subst heq
  rw [countDiff_applyWrites tab _ hnodup hlt hne, hlength]

/-- Inner hand-out loop of balance_dec: rewrite cnt consecutive source
slots (starting at off) to the id v, advancing the source offset. -/
def handOut (target : List Nat) (v : Nat) :
    Nat → Nat → List Nat → Except FsxErr (List Nat × Nat)
  | off, 0, tab => Except.ok (tab, off)
  | off, cnt + 1, tab =>
    match fibGet target off with
    | Except.error e => Except.error e
    | Except.ok s =>
      match writeTab tab s v with
      | Except.error e => Except.error e
      | Except.ok tab1 => handOut target v (off + 1) cnt tab1

/-- Outer distribution loop of balance_dec over survivor positions
paired with their positions in the old weight vector. -/
def decLoop (vec : List Bucket) (target : List Nat) (oldW newW : List Nat) :
    List (Nat × Nat) → Nat → List Nat → Except FsxErr (List Nat × Nat)
  | [], off, tab => Except.ok (tab, off)
  | (i, oi) :: rest, off, tab =>
    match checkedSub (newW.getD i 0) (oldW.getD oi 0) with
    | Except.error e => Except.error e
    | Except.ok sho =>
      match handOut target (idx2id vec i) off sho tab with
      | Except.error e => Except.error e
      | Except.ok (tab1, off1) => decLoop vec target oldW newW rest off1 tab1

/-- Survivor positions visited by balance_dec, in source order; to the
right of target_pos the old position is shifted by one when a victim
bucket is being removed. -/
def decPairs (targetPos newNumb : Nat) (hasVictim : Bool) : List (Nat × Nat) :=
  ((List.range targetPos).map fun i => (i, i)) ++
    ((List.range' targetPos (newNumb - targetPos)).map
      fun i => (i, if hasVictim then i + 1 else i))

/-- Embedding of balance_dec (fsx32.c:382-477).  vec is the new
(survivor) bucket vector.  The none case models fsx32.c:397, where
victim_id is loaded through the removeme pointer before any NULL check:
with removeme == NULL this dereferences NULL, so the pure re-weight
source selection at fsx32.c:419-423 (target fiber tail) is dead code
sitting behind the fault and is not reachable in the model either.
With a victim present, its whole fiber is walked from offset 0 and the
slots are handed to the survivors in order, each survivor receiving its
u32 shortage new_weight - old_weight. -/
def balance_dec (newNumb : Nat) (tab : List Nat) (oldW newW : List Nat)
    (targetPos : Nat) (vec : List Bucket) (removeme : Option Bucket) :
    Except FsxErr (List Nat) :=
  match removeme with
  | none => Except.error FsxErr.nullDeref
  | some victim =>
    match decLoop vec victim.fib oldW newW
        (decPairs targetPos newNumb true) 0 tab with
    | Except.error e => Except.error e
    | Except.ok (tab', _) => Except.ok tab'

/-- The slot list underlying a segment of writes. -/
theorem segWrites_fst (fib : List Nat) (tgt pos cnt : Nat) :
    (segWrites fib tgt pos cnt).map Prod.fst
      = (fib.drop pos).take cnt := by
  unfold segWrites
  rw [List.map_map]
  rw [show (Prod.fst ∘ fun s : Nat => (s, tgt)) = fun s : Nat => s from rfl]
  exact List.map_id' _

theorem handOut_ok {target : List Nat} {v : Nat} :
    ∀ {cnt off : Nat} {tab : List Nat} {res : List Nat × Nat},
    handOut target v off cnt tab = Except.ok res →
    (0 < cnt → off + cnt ≤ target.length) ∧
    res.2 = off + cnt ∧
    res.1 = applyWrites tab (segWrites target v off cnt) ∧
    (∀ q ∈ segWrites target v off cnt, q.1 < tab.length ∧ q.2 = v) := by
  intro cnt
  induction cnt with
  | zero =>
    intro off tab res h
    unfold handOut at h
    simp only [Except.ok.injEq] at h
    subst h
    refine ⟨by omega, by omega, by rw [segWrites_zero]; rfl, ?_⟩
    intro q hq
    rw [segWrites_zero] at hq
    simp at hq
  | succ c ih =>
    intro off tab res h
    unfold handOut at h
    split at h
    next e heq => exact absurd h (by simp)
    next s heq =>
      split at h
      next e' heq' => exact absurd h (by simp)
      next tab1 heq' =>
        obtain ⟨hpos, hsval⟩ := fibGet_ok heq
        obtain ⟨hslen, htab1⟩ := writeTab_ok heq'
        obtain ⟨hb, hoff, heq2, hq⟩ := ih h
        refine ⟨fun _ => ?_, by omega, ?_, ?_⟩
        · rcases Nat.eq_zero_or_pos c with hc | hc
          · omega
          · have := hb hc; omega
        · rw [segWrites_succ target v off c hpos, applyWrites_cons, heq2,
            htab1, hsval]
        · intro q hq'
          rw [segWrites_succ target v off c hpos] at hq'
          rcases List.mem_cons.mp hq' with hq1 | hq1
          · subst hq1
            exact ⟨by rwa [hsval], rfl⟩
          · have := hq q hq1
            rw [htab1, List.length_set] at this
            exact this

/-- The combined write list of balance_dec: consecutive segments of the
source fiber starting at off, the segment of survivor (i, oi) stamped
with that survivor's id. -/
def decWrites (vec : List Bucket) (target : List Nat) (oldW newW : List Nat) :
    List (Nat × Nat) → Nat → List (Nat × Nat)
  | [], _ => []
  | (i, oi) :: rest, off =>
    segWrites target (idx2id vec i) off (newW.getD i 0 - oldW.getD oi 0)
      ++ decWrites vec target oldW newW rest
          (off + (newW.getD i 0 - oldW.getD oi 0))

theorem decWrites_mem {vec : List Bucket} {target oldW newW : List Nat} :
    ∀ {pairs : List (Nat × Nat)} {off : Nat} {q : Nat × Nat},
    q ∈ decWrites vec target oldW newW pairs off →
    q.1 ∈ target ∧ ∃ p ∈ pairs, q.2 = idx2id vec p.1 := by
  intro pairs
  induction pairs with
  | nil => intro off q hq; simp [decWrites] at hq
  | cons p rest ih =>
    intro off q hq
    obtain ⟨i, oi⟩ := p
    unfold decWrites at hq
    rcases List.mem_append.mp hq with hq1 | hq1
    · obtain ⟨hmem, hval⟩ := segWrites_mem hq1
      exact ⟨hmem, (i, oi), List.mem_cons_self _ _, hval⟩
    · obtain ⟨hmem, p', hp', hval⟩ := ih hq1
      exact ⟨hmem, p', List.mem_cons_of_mem _ hp', hval⟩

/-- The slots written by balance_dec form one contiguous stretch of the
source fiber. -/
theorem decWrites_fst (vec : List Bucket) (target oldW newW : List Nat) :
    ∀ (pairs : List (Nat × Nat)) (off : Nat),
    (decWrites vec target oldW newW pairs off).map Prod.fst
      = (target.drop off).take
          ((pairs.map fun p => newW.getD p.1 0 - oldW.getD p.2 0).sum) := by
  intro pairs
  induction pairs with
  | nil => intro off; simp [decWrites]
  | cons p rest ih =>
    intro off
    obtain ⟨i, oi⟩ := p
    unfold decWrites
    rw [List.map_append, segWrites_fst, ih, List.map_cons, List.sum_cons]
    rw [List.take_add, List.drop_drop]

theorem decLoop_ok {vec : List Bucket} {target oldW newW : List Nat} :
    ∀ {pairs : List (Nat × Nat)} {off : Nat} {tab : List Nat}
      {res : List Nat × Nat},
    decLoop vec target oldW newW pairs off tab = Except.ok res →
    (∀ p ∈ pairs, oldW.getD p.2 0 ≤ newW.getD p.1 0) ∧
    res.1 = applyWrites tab (decWrites vec target oldW newW pairs off) ∧
    (∀ q ∈ decWrites vec target oldW newW pairs off, q.1 < tab.length) := by
  intro pairs
  induction pairs with
  | nil =>
    intro off tab res h
    unfold decLoop at h
    simp only [Except.ok.injEq] at h
    subst h
    exact ⟨by simp, rfl, by intro q hq; simp [decWrites] at hq⟩
  | cons p rest ih =>
    intro off tab res h
    obtain ⟨i, oi⟩ := p
    unfold decLoop at h
    split at h
    next e heq => exact absurd h (by simp)
    next sho heq =>
      split at h
      next e' heq' => exact absurd h (by simp)
      next tab1 off1 heq' =>
        obtain ⟨hle, hsho⟩ := checkedSub_ok heq
        subst hsho
        obtain ⟨hb, hoff, htab1, hseg⟩ := handOut_ok heq'
        have hoff1 : off1 = off + (newW.getD i 0 - oldW.getD oi 0) := hoff
        have htab1' : tab1 = applyWrites tab (segWrites target (idx2id vec i)
          off (newW.getD i 0 - oldW.getD oi 0)) := htab1
        obtain ⟨hle2, heq2, hlt2⟩ := ih h
        refine ⟨?_, ?_, ?_⟩
        · intro p' hp'
          rcases List.mem_cons.mp hp' with h1 | h1
          · subst h1; exact hle
          · exact hle2 p' h1
        · rw [decWrites, applyWrites_append, ← htab1']
          rw [hoff1] at heq2
          exact heq2
        · intro q hq
          rw [decWrites] at hq
          rcases List.mem_append.mp hq with hq1 | hq1
          · exact (hseg q hq1).1
          · rw [← hoff1] at hq1
            have := hlt2 q hq1
            rw [htab1', applyWrites_length] at this
            exact this

/-- Pointwise dominated subtraction sums to zero. -/
theorem sum_map_sub_eq_zero {pairs : List (Nat × Nat)} {f g : Nat × Nat → Nat}
    (h : ∀ p ∈ pairs, f p ≤ g p) :
    (pairs.map fun p => f p - g p).sum = 0 := by
  induction pairs with
  | nil => rfl
  | cons p rest ih =>
    rw [List.map_cons, List.sum_cons,
      ih fun q hq => h q (List.mem_cons_of_mem _ hq)]
    have := h p (List.mem_cons_self _ _)
    omega

/-- Pointwise dominated subtraction sums to the difference of sums. -/
theorem sum_map_sub_add {pairs : List (Nat × Nat)} {f g : Nat × Nat → Nat}
    (h : ∀ p ∈ pairs, f p ≤ g p) :
    (pairs.map fun p => g p - f p).sum + (pairs.map f).sum
      = (pairs.map g).sum := by
  induction pairs with
  | nil => rfl
  | cons p rest ih =>
    simp only [List.map_cons, List.sum_cons]
    have h1 := h p (List.mem_cons_self _ _)
    have h2 := ih fun q hq => h q (List.mem_cons_of_mem _ hq)
    omega

/-- Positions visited by decPairs stay below newNumb. -/
theorem decPairs_mem {targetPos newNumb : Nat} {hasVictim : Bool}
    {p : Nat × Nat} (htp : targetPos ≤ newNumb)
    (h : p ∈ decPairs targetPos newNumb hasVictim) : p.1 < newNumb := by
  unfold decPairs at h
  rcases List.mem_append.mp h with h1 | h1
  · rcases List.mem_map.mp h1 with ⟨i, hi, hp⟩
    rw [List.mem_range] at hi
    subst hp
    simp only
    omega
  · rcases List.mem_map.mp h1 with ⟨i, hi, hp⟩
    rw [List.mem_range'_1] at hi
    subst hp
    simp only
    omega

/-- Movement count of a successful balance_dec with a victim bucket:
assuming the victim's fiber is canonical for the table, survivor ids
differ from the victim's, and the weight vectors balance (the survivors
jointly gain exactly the victim's old weight), the number of slots whose
id changed equals the survivors' total excess (zero) plus the victim's
whole weight. -/
theorem balance_dec_count {newNumb : Nat} {tab : List Nat}
    {oldW newW : List Nat} {targetPos : Nat} {vec : List Bucket}
    {victim : Bucket} {tab' : List Nat}
    (hok : balance_dec newNumb tab oldW newW targetPos vec (some victim)
      = Except.ok tab')
    (htp : targetPos ≤ newNumb)
    (hvfib : victim.fib = canonFiber tab victim.id)
    (hvw : victim.fib.length = oldW.getD targetPos 0)
    (hvid : ∀ i, i < newNumb → idx2id vec i ≠ victim.id)
    (hsum : ((decPairs targetPos newNumb true).map
          fun p => newW.getD p.1 0).sum
        = ((decPairs targetPos newNumb true).map
          fun p => oldW.getD p.2 0).sum + oldW.getD targetPos 0) :
    countDiff tab tab' =
      ((decPairs targetPos newNumb true).map
        fun p => oldW.getD p.2 0 - newW.getD p.1 0).sum
      + oldW.getD targetPos 0 := by
  have hok' : (match decLoop vec victim.fib oldW newW
      (decPairs targetPos newNumb true) 0 tab with
    | Except.error e => Except.error e
    | Except.ok (tab1, _) => Except.ok tab1) = Except.ok tab' := hok
  clear hok
  rcases hdl : decLoop vec victim.fib oldW newW
      (decPairs targetPos newNumb true) 0 tab with e | res
  · rw [hdl] at hok'; simp at hok'
  · rw [hdl] at hok'
    obtain ⟨tab1, off1⟩ := res
    simp only [Except.ok.injEq] at hok'
    subst hok'
    obtain ⟨hle, heq, hlt⟩ := decLoop_ok hdl
    have htot : ((decPairs targetPos newNumb true).map
        fun p => newW.getD p.1 0 - oldW.getD p.2 0).sum
        = oldW.getD targetPos 0 := by
      have h1 := sum_map_sub_add hle
      omega
    have hfst := decWrites_fst vec victim.fib oldW newW
      (decPairs targetPos newNumb true) 0
    have hnodup : ((decWrites vec victim.fib oldW newW
        (decPairs targetPos newNumb true) 0).map Prod.fst).Nodup := by
      rw [hfst]
      exact List.Nodup.sublist
        ((List.take_sublist _ _).trans (List.drop_sublist _ _))
        (hvfib ▸ canonFiber_nodup tab victim.id)
    have hne : ∀ q ∈ decWrites vec victim.fib oldW newW
        (decPairs targetPos newNumb true) 0, tab.getD q.1 0 ≠ q.2 := by
      intro q hq
      obtain ⟨hmem, p, hp, hval⟩ := decWrites_mem hq
      rw [hval]
      rw [(canonFiber_mem.mp (hvfib ▸ hmem)).2]
      intro hc
      exact hvid p.1 (decPairs_mem htp hp) hc.symm
    have hwlen : (decWrites vec victim.fib oldW newW
        (decPairs targetPos newNumb true) 0).length
        = oldW.getD targetPos 0 := by
      rw [← List.length_map _ Prod.fst, hfst, List.drop_zero]
      rw [List.length_take_of_le (by rw [htot, ← hvw])]
      exact htot
    have hz := sum_map_sub_eq_zero hle
    have heq' : tab1 = applyWrites tab (decWrites vec victim.fib oldW newW
      (decPairs targetPos newNumb true) 0) := heq
    rw [heq', countDiff_applyWrites tab _ hnodup hlt hne, hwlen]
    omega
def stretchTab (tab : List Nat) (factor : Nat) : List Nat :=
  tab.flatMap (List.replicate factor)

/-- Gathering loop of balance_spl: collect the exc[i] tail slots of each
donor fiber into the relocation array, in order. -/
def gatherSeg (fib : List Nat) : Nat → Nat → Except FsxErr (List Nat)
  | _, 0 => Except.ok []
  | pos, cnt + 1 => do
    let s ← fibGet fib pos
    let rest ← gatherSeg fib (pos + 1) cnt
    Except.ok (s :: rest)

def gatherLoop (vec : List Bucket) (oldW newW : List Nat) (factor : Nat) :
    List Nat → Except FsxErr (List Nat)
  | [] => Except.ok []
  | i :: rest => do
    let exc ← checkedSub (factor * oldW.getD i 0) (newW.getD i 0)
    let seg ← gatherSeg (fiber_at vec i) (newW.getD i 0) exc
    let tail ← gatherLoop vec oldW newW factor rest
    Except.ok (seg ++ tail)

/-- Distribution loop of balance_spl: stamp sho[i] relocation slots with
the id of recipient numExc + i.  As in the source, the shortage read for
recipient numExc + i uses the weights at index i, not at numExc + i. -/
def distSeg (reloc : List Nat) (v : Nat) :
    Nat → Nat → List Nat → Except FsxErr (List Nat × Nat)
  | k, 0, tab => Except.ok (tab, k)
  | k, cnt + 1, tab => do
    let s ← fibGet reloc k
    let tab' ← writeTab tab s v
    distSeg reloc v (k + 1) cnt tab'

def distLoop (vec : List Bucket) (reloc : List Nat) (oldW newW : List Nat)
    (factor numExc : Nat) :
    List Nat → Nat → List Nat → Except FsxErr (List Nat × Nat)
  | [], k, tab => Except.ok (tab, k)
  | i :: rest, k, tab => do
    let sho ← checkedSub (newW.getD i 0) (factor * oldW.getD i 0)
    let (tab', k') ← distSeg reloc (idx2id vec (numExc + i)) k sho tab
    distLoop vec reloc oldW newW factor numExc rest k' tab'

/-- Embedding of balance_spl (fsx32.c:482-594).  The table is stretched
by factor = 2 ^ fact_bits.  When nums mod numb = 0 the stretched table
is published as is (the source comment reads: everything is balanced).
Otherwise fibers are rebuilt on the stretched table at the doubled old
weights, the tail slots of the first numExc fibers are gathered and
redistributed to the remaining buckets. -/
def balance_spl (numb numsBits : Nat) (tab : List Nat) (oldW newW : List Nat)
    (factBits : Nat) (vec : List Bucket) : Except FsxErr (List Nat) := do
  let nums := 2 ^ numsBits
  let factor := 2 ^ factBits
  let numExc := nums % numb
  let numSho := numb - numExc
  let stretched := stretchTab tab factor
  if numExc = 0 then Except.ok stretched
  else do
    let vec' ← create_fibers stretched numb (oldW.map (· * factor)) vec
    let reloc ← gatherLoop vec' oldW newW factor (List.range numExc)
    let (tab'', _) ← distLoop vec' reloc oldW newW factor numExc
      (List.range numSho) 0 stretched
    Except.ok tab''

/-! ## The dcx-level operations -/

/-- Distribution context fsx32_dcx: bucket count, table resolution bits,
weight vector, and the system table the context currently owns. -/
structure Dcx where
  numb : Nat
  numsBits : Nat
  weights : List Nat
  tab : List Nat
deriving DecidableEq

/-- Embedding of initv_fsx32 (fsx32.c:674-729).  tab0 is the published
table read from disk, or none on a fresh one-brick volume, in which case
initr_fsx32 allocates it and every slot is set to the id of bucket 0.
The weights are calibrated from the bucket capacities and the fibers are
built; the fibered bucket vector is returned with the context. -/
def initv_fsx32 (tab0 : Option (List Nat)) (numb numsBits : Nat)
    (vec : List Bucket) : Except FsxErr (Dcx × List Bucket) := do
  if numb = 0 ∨ MAX_SHIFT ≤ numsBits then Except.error FsxErr.einval
  else do
    let nums := 2 ^ numsBits
    if nums ≤ numb then Except.error FsxErr.einval
    else do
      let weights ← (calibrate32 numb nums (cap_at vec)).mapError FsxErr.cal
      let tab ← (match tab0 with
        | some t => Except.ok t
        | none =>
          if numsBits < MIN_NUMS_BITS then Except.error FsxErr.einval
          else Except.ok (List.replicate nums (idx2id vec 0)))
      let vec' ← create_fibers tab numb weights vec
      Except.ok (⟨numb, numsBits, weights, tab⟩, vec')

/-- Embedding of inc_fsx32 (fsx32.c:741-796).  vec is the new bucket
vector (the new bucket, if any, already inserted at target_pos).  The
system table the context works on is a clone of the published table, so
the published one is untouched on error. -/
def inc_fsx32 (st : Dcx) (vec : List Bucket) (targetPos : Nat)
    (newBucket : Bool) : Except FsxErr Dcx := do
  if newBucket ∧ st.numb = MAX_BUCKETS then Except.error FsxErr.einval
  else do
    let newNumb := if newBucket then st.numb + 1 else st.numb
    let nums := 2 ^ st.numsBits
    if nums < newNumb then Except.error FsxErr.einval
    else do
      let newW ← (calibrate32 newNumb nums (cap_at vec)).mapError FsxErr.cal
      let tab' ← balance_inc newNumb st.tab st.weights newW targetPos vec
        newBucket
      Except.ok ⟨newNumb, st.numsBits, newW, tab'⟩

/-- Embedding of check_space (fsx32.c:805-841): calibrate the occupied
bytes over the surviving buckets and refuse with enospc when a bucket
cannot host its calibrated share. -/
def check_space (numb occ : Nat) (vec : List Bucket) :
    Except FsxErr Unit := do
  let v ← (calibrate64 numb occ (cap_at vec)).mapError FsxErr.cal
  if ∃ i ∈ List.range numb, cap_at vec i < v.getD i 0
  then Except.error FsxErr.enospc
  else Except.ok ()

/-- Embedding of dec_fsx32 (fsx32.c:843-905).  vec is the survivor
bucket vector; occ is the total occupied space reported by
space_occupied(). -/
def dec_fsx32 (st : Dcx) (vec : List Bucket) (targetPos : Nat)
    (removeme : Option Bucket) (occ : Nat) : Except FsxErr Dcx := do
  let newNumb := if removeme.isSome then st.numb - 1 else st.numb
  check_space newNumb occ vec
  let nums := 2 ^ st.numsBits
  let newW ← (calibrate32 newNumb nums (cap_at vec)).mapError FsxErr.cal
  let tab' ← balance_dec newNumb st.tab st.weights newW targetPos vec removeme
  Except.ok ⟨newNumb, st.numsBits, newW, tab'⟩

/-! ## Serialization: pack_fsx32 / unpack_fsx32 -/

/-- Little-endian byte encoding of one u32 table entry, as put_unaligned
of cpu_to_le32 lays it out. -/
def le32enc (w : Nat) : List Nat :=
  [w % 256, w / 2 ^ 8 % 256, w / 2 ^ 16 % 256, w / 2 ^ 24 % 256]

/-- Decoding of one little-endian u32, as le32_to_cpu of get_unaligned. -/
def le32dec (b0 b1 b2 b3 : Nat) : Nat :=
  b0 + 2 ^ 8 * b1 + 2 ^ 16 * b2 + 2 ^ 24 * b3

/-- Embedding of pack_fsx32 (fsx32.c:950-966): write count 32-bit
entries of the table owned by the context, starting at src_off, to a
little-endian byte stream. -/
def pack_fsx32 (tab : List Nat) (srcOff count : Nat) : List Nat :=
  ((tab.drop srcOff).take count).flatMap le32enc

/-- Embedding of unpack_fsx32 (fsx32.c:968-984): read count 32-bit
little-endian entries from the byte stream and store them into the
table starting at dst_off.  The C reads exactly 4 count bytes; reads
past the end of the stream (never performed by an in-bounds caller)
appear here as the getD default. -/
def unpack_fsx32 (tab : List Nat) (buf : List Nat) (dstOff count : Nat) :
    List Nat :=
  match count with
  | 0 => tab
  | c + 1 =>
    unpack_fsx32
      (tab.set dstOff
        (le32dec (buf.getD 0 0) (buf.getD 1 0) (buf.getD 2 0) (buf.getD 3 0)))
      (buf.drop 4) (dstOff + 1) c

theorem le32_roundtrip {w : Nat} (h : w < 2 ^ 32) :
    le32dec (w % 256) (w / 2 ^ 8 % 256) (w / 2 ^ 16 % 256)
      (w / 2 ^ 24 % 256) = w := by
  unfold le32dec
  omega

theorem set_getD_self {l : List Nat} {i : Nat} (h : i < l.length) :
    l.set i (l.getD i 0) = l := by
  apply List.ext_getElem?
  intro n
  by_cases hn : n = i
  · subst hn
    rw [List.getElem?_set_self (by simpa using h)]
    rw [List.getD_eq_getElem?_getD, List.getElem?_eq_getElem h]
    rfl
  · rw [List.getElem?_set_ne (fun hc => hn hc.symm)]

theorem pack_cons {tab : List Nat} {srcOff count : Nat}
    (h : srcOff < tab.length) :
    pack_fsx32 tab srcOff (count + 1)
      = le32enc (tab.getD srcOff 0) ++ pack_fsx32 tab (srcOff + 1) count := by
  unfold pack_fsx32
  rw [List.drop_eq_getElem_cons h, List.take_succ_cons, List.flatMap_cons]
  congr 2
  rw [List.getD_eq_getElem?_getD, List.getElem?_eq_getElem h]
  rfl

/-- Round-trip: packing count in-range entries and unpacking them back
into the same table at the same offset leaves the table unchanged. -/
theorem unpack_pack (tab : List Nat) :
    ∀ (count srcOff : Nat), srcOff + count ≤ tab.length →
    (∀ x ∈ tab, x < 2 ^ 32) →
    unpack_fsx32 tab (pack_fsx32 tab srcOff count) srcOff count = tab := by
  intro count
  induction count with
  | zero => intro srcOff _ _; rfl
  | succ c ih =>
    intro srcOff hb hw
    have hoff : srcOff < tab.length := by omega
    rw [pack_cons hoff]
    unfold unpack_fsx32
    have hv : tab.getD srcOff 0 ∈ tab := by
      rw [List.getD_eq_getElem?_getD, List.getElem?_eq_getElem hoff]
      exact List.getElem_mem hoff
    have hv32 : tab.getD srcOff 0 < 2 ^ 32 := hw _ hv
    have hbytes :
        (le32enc (tab.getD srcOff 0) ++ pack_fsx32 tab (srcOff + 1) c).getD 0 0
          = tab.getD srcOff 0 % 256 ∧
        (le32enc (tab.getD srcOff 0) ++ pack_fsx32 tab (srcOff + 1) c).getD 1 0
          = tab.getD srcOff 0 / 2 ^ 8 % 256 ∧
        (le32enc (tab.getD srcOff 0) ++ pack_fsx32 tab (srcOff + 1) c).getD 2 0
          = tab.getD srcOff 0 / 2 ^ 16 % 256 ∧
        (le32enc (tab.getD srcOff 0) ++ pack_fsx32 tab (srcOff + 1) c).getD 3 0
          = tab.getD srcOff 0 / 2 ^ 24 % 256 := by
      refine ⟨?_, ?_, ?_, ?_⟩ <;>
        · rw [List.getD_append _ _ _ _ (by simp [le32enc])]
          rfl
    rw [hbytes.1, hbytes.2.1, hbytes.2.2.1, hbytes.2.2.2]
    rw [le32_roundtrip hv32, set_getD_self hoff]
    rw [show (le32enc (tab.getD srcOff 0)
        ++ pack_fsx32 tab (srcOff + 1) c).drop 4
      = pack_fsx32 tab (srcOff + 1) c from
        List.drop_left' (by simp [le32enc])]
    exact ih (srcOff + 1) (by omega) hw

/-- Embedding of spl_fsx32 (fsx32.c:907-948). -/
def spl_fsx32 (st : Dcx) (vec : List Bucket) (factBits : Nat) :
    Except FsxErr Dcx := do
  if MAX_SHIFT < st.numsBits + factBits then Except.error FsxErr.einval
  else do
    let newNums := 2 ^ (st.numsBits + factBits)
    let newW ← (calibrate32 st.numb newNums (cap_at vec)).mapError FsxErr.cal
    let tab' ← balance_spl st.numb st.numsBits st.tab st.weights newW factBits
      vec
    Except.ok ⟨st.numb, st.numsBits + factBits, newW, tab'⟩

/-! ## Facts about the stretch path of balance_spl -/

/-- Entry s of the stretched table is entry s / factor of the old
one. -/
theorem stretchTab_getD {tab : List Nat} {f : Nat} (hf : 0 < f) :
    ∀ {s : Nat}, s < tab.length * f →
    (stretchTab tab f).getD s 0 = tab.getD (s / f) 0 := by
  induction tab with
  | nil => intro s hs; simp at hs
  | cons a t ih =>
    intro s hs
    unfold stretchTab
    rw [List.flatMap_cons]
    by_cases hsf : s < f
    · rw [List.getD_append _ _ _ _ (by simpa using hsf)]
      rw [Nat.div_eq_of_lt hsf]
      simp [List.getD_eq_getElem?_getD, List.getElem?_replicate, hsf]
    · push_neg at hsf
      rw [List.getD_append_right _ _ _ _ (by simpa using hsf)]
      rw [List.length_replicate]
      have hdiv : s / f = (s - f) / f + 1 := Nat.div_eq_sub_div hf hsf
      rw [hdiv, List.getD_cons_succ]
      have hlen : s - f < t.length * f := by
        rw [List.length_cons] at hs
        have : (t.length + 1) * f = t.length * f + f := by ring
        omega
      exact ih hlen

/-- Stretching multiplies every id count by the factor. -/
theorem stretchTab_count (f x : Nat) :
    ∀ (tab : List Nat), (stretchTab tab f).count x = f * tab.count x := by
  intro tab
  induction tab with
  | nil => simp [stretchTab]
  | cons a t ih =>
    unfold stretchTab
    rw [List.flatMap_cons, List.count_append]
    unfold stretchTab at ih
    rw [ih, List.count_cons, List.count_replicate]
    by_cases hax : a = x
    · subst hax
      simp only [beq_self_eq_true, if_true]
      ring
    · have hbeq : (a == x) = false := beq_eq_false_iff_ne.mpr hax
      simp only [hbeq, Bool.false_eq_true, if_false]
      ring

/-- A divisor of a power of two that stays below a smaller power of two
divides that smaller power as well. -/
theorem dvd_pow_two_of_le {numb nB fB : Nat}
    (hdvd : numb ∣ 2 ^ nB * 2 ^ fB) (hle : numb ≤ 2 ^ nB) :
    numb ∣ 2 ^ nB := by
  rw [← Nat.pow_add] at hdvd
  obtain ⟨k, hk, hnumb⟩ := (Nat.dvd_prime_pow Nat.prime_two).mp hdvd
  subst hnumb
  have hkn : k ≤ nB := (Nat.pow_le_pow_iff_right (by omega)).mp hle
  exact pow_dvd_pow 2 hkn

/-- Equal capacities with a budget the bucket count divides calibrate to
the uniform distribution. -/
theorem calibrate_const (mask numb val c : Nat) (hc : 0 < c)
    (hnumb : 0 < numb) (hdvd : numb ∣ val) (hS : numb * c < U64)
    (hq : val * c < U64) (hval : val < mask) (hm : mask ≤ U64) :
    calibrate mask numb val (fun _ => c)
      = Except.ok (List.replicate numb (val / numb)) := by
  have hSf : sumF numb (fun _ => c) = numb * c := sumF_const numb c
  rw [calibrate_eq_calExact mask numb val (fun _ => c)
    (by rw [hSf]; exact Nat.mul_pos hnumb hc) (by rw [hSf]; exact hS)
    (fun i _ => hq) hval hm]
  congr 1
  show (List.range numb).map (fun i =>
      val * c / sumF numb (fun _ => c)
      + if i < val - sumF numb (fun i =>
          val * c / sumF numb (fun _ => c)) then 1 else 0)
    = List.replicate numb (val / numb)
  simp only [hSf, Nat.mul_div_mul_right val numb hc]
  have hs2 : sumF numb (fun _ : Nat => val / numb) = val := by
    rw [sumF_const]
    obtain ⟨q, hqv⟩ := hdvd
    subst hqv
    rw [Nat.mul_div_cancel_left q hnumb]
  simp only [hs2, Nat.sub_self, Nat.not_lt_zero, if_false, Nat.add_zero]
  rw [List.map_const', List.length_range]

/-! ## Extent migration: what_to_do and the reiser4_migrate_extent loop
(src/plugin/item/extent_volume_ops.c) -/

/-- Primitive migration operations over an item
(extent_volume_ops.c:27-32). -/
inductive MigAct where
  | invalidAction
  | migrateExtent
  | splitExtent
  | skipExtent
deriving DecidableEq

/-- The aspects of an extent item the decision procedure looks at: the
offset field of its key, its size in bytes, and the ordering field of
its key (the id of the brick the item currently lives on). -/
structure XItem where
  keyOff : Nat
  size : Nat
  ordering : Nat
deriving DecidableEq

/-- The fields of the migration context what_to_do fills in. -/
structure WtdRes where
  act : MigAct
  stop : Bool
  stopOff : Nat
  newLoc : Nat
  migrateWhole : Bool
deriving DecidableEq

def MIGRATION_GRANULARITY : Nat := 8192

/-- Offset of the start of the stripe containing off:
off - (off & (stripe - 1)) as the source masks it. -/
def normStripe (off stripe : Nat) : Nat :=
  off - (off &&& (stripe - 1))

/-- The split-offset search loop of what_to_do
(extent_volume_ops.c:738-744): walk stripe by stripe from the right
end; the first stripe (scanning leftward) mapping away from new_loc
puts the split offset at its right boundary.  In the source both
offsets are stripe-aligned and positive, so the Nat truncation in
off2 - stripe matches the signed C arithmetic on all reachable
inputs. -/
def findSplitOff (calcId : Nat → Nat) (newLoc stripe off1 off2 : Nat) :
    Option Nat :=
  if _h : 0 < stripe ∧ off1 < off2 then
    if calcId (off2 - stripe) ≠ newLoc then some (off2 - stripe + stripe)
    else findSplitOff calcId newLoc stripe off1 (off2 - stripe)
  else none
termination_by off2
decreasing_by omega

/-- Embedding of what_to_do_nosplit (extent_volume_ops.c:626-694): skip
the whole item when it already lives on new_loc, migrate it whole when
it fits in MIGRATION_GRANULARITY pages, otherwise migrate the tail
MIGRATION_GRANULARITY pages.  The unit-level split position computed
through the tree lookup is outside the modeled fragment. -/
def what_to_do_nosplit (pageShift : Nat) (calcId : Nat → Nat)
    (dst : Option Nat) (item : XItem) : WtdRes :=
  let newLoc := match dst with
    | some d => d
    | none => calcId item.keyOff
  if item.ordering = newLoc then
    ⟨MigAct.skipExtent, true, item.keyOff, newLoc, false⟩
  else if item.size ≤ MIGRATION_GRANULARITY <<< pageShift then
    ⟨MigAct.migrateExtent, false, item.keyOff, newLoc, true⟩
  else
    ⟨MigAct.migrateExtent, false,
      item.keyOff + item.size - (MIGRATION_GRANULARITY <<< pageShift),
      newLoc, false⟩

/-- Embedding of what_to_do (extent_volume_ops.c:700-814).  In split
mode the rightmost stripe boundary separating new_loc from another
brick is searched; without one the item is migrated whole or skipped,
with one the item is tail-migrated or split at that offset.  The
unit-level split position (computed through lookup_extent and unit
keys, which live in the tree plugin) is outside the modeled
fragment. -/
def what_to_do (nosplitMode : Bool) (pageShift stripe : Nat)
    (calcId : Nat → Nat) (dst : Option Nat) (item : XItem) : WtdRes :=
  if nosplitMode then what_to_do_nosplit pageShift calcId dst item
  else
    let off1 := normStripe item.keyOff stripe
    let off2 := normStripe (item.keyOff + item.size - 1) stripe
    let newLoc := match dst with
      | some d => d
      | none => calcId off2
    match findSplitOff calcId newLoc stripe off1 off2 with
    | none =>
      if newLoc ≠ item.ordering then
        ⟨MigAct.migrateExtent, false, item.keyOff, newLoc, true⟩
      else
        ⟨MigAct.skipExtent, true, item.keyOff, newLoc, false⟩
    | some splitOff =>
      if newLoc ≠ item.ordering then
        ⟨MigAct.migrateExtent, false, splitOff, newLoc, false⟩
      else
        ⟨MigAct.splitExtent, false, splitOff, newLoc, false⟩

theorem normStripe_pow (off k : Nat) :
    normStripe off (2 ^ k) = off - off % 2 ^ k := by
  unfold normStripe
  rw [Nat.and_pow_two_sub_one_eq_mod]

theorem normStripe_dvd (off k : Nat) : 2 ^ k ∣ normStripe off (2 ^ k) := by
  rw [normStripe_pow]
  have h := Nat.div_add_mod off (2 ^ k)
  exact ⟨off / 2 ^ k, by omega⟩

theorem normStripe_mono {a b : Nat} (k : Nat) (h : a ≤ b) :
    normStripe a (2 ^ k) ≤ normStripe b (2 ^ k) := by
  rw [normStripe_pow, normStripe_pow]
  have h1 := Nat.div_add_mod a (2 ^ k)
  have h2 := Nat.div_add_mod b (2 ^ k)
  have h3 : a / 2 ^ k ≤ b / 2 ^ k := Nat.div_le_div_right h
  have h4 : 2 ^ k * (a / 2 ^ k) ≤ 2 ^ k * (b / 2 ^ k) :=
    Nat.mul_le_mul_left _ h3
  omega

/-- When every stripe-aligned offset in the scanned window maps to
new_loc, no split offset is found. -/
theorem findSplitOff_none {calcId : Nat → Nat} {d stripe off1 : Nat} :
    ∀ {off2 : Nat}, stripe ∣ off1 → stripe ∣ off2 →
    (∀ o, stripe ∣ o → off1 ≤ o → o < off2 → calcId o = d) →
    findSplitOff calcId d stripe off1 off2 = none := by
  intro off2
  induction off2 using Nat.strong_induction_on with
  | _ off2 ih =>
    intro h1 h2 hcalc
    unfold findSplitOff
    split
    next hcond =>
      obtain ⟨hs, ho⟩ := hcond
      have hso : stripe ≤ off2 := Nat.le_of_dvd (by omega) h2
      have hdvd : stripe ∣ off2 - stripe := Nat.dvd_sub' h2 dvd_rfl
      have hgap : stripe ≤ off2 - off1 :=
        Nat.le_of_dvd (by omega) (Nat.dvd_sub' h2 h1)
      have hle1 : off1 ≤ off2 - stripe := by omega
      have hc : calcId (off2 - stripe) = d :=
        hcalc (off2 - stripe) hdvd hle1 (by omega)
      rw [if_neg (show ¬ calcId (off2 - stripe) ≠ d from fun hne => hne hc)]
      exact ih (off2 - stripe) (by omega) h1 hdvd
        (fun o ho1 ho2 ho3 => hcalc o ho1 ho2 (by omega))
    next => rfl

/-- Outcome of a reiser4_migrate_extent call: the returned code, the
done_off output (none when never set), the blocks_migrated counter, and
the trace of primitives taken. -/
structure MigOutcome where
  ret : Int
  doneOff : Option Nat
  blocksMigrated : Nat
  acts : List MigAct
deriving DecidableEq

/-- Embedding of the loop of reiser4_migrate_extent
(extent_volume_ops.c:816-872).  The two primitives that change the tree
are passed in as handlers: doMig abstracts do_migrate_extent (returning
the re-looked-up item, the number of blocks migrated and the stop
flag), doSpl abstracts do_split_extent.  On SKIP the loop merely
attempts a right-merge (placement-neutral), publishes done_off =
stop_off and returns 0.  The fuel argument bounds the iteration count
only so the model is total; a fuel-out returns the marker ret = -1,
which no theorem relies on. -/
def reiser4_migrate_extent
    (doMig : XItem → WtdRes → Except Int (XItem × Nat × Bool))
    (doSpl : XItem → WtdRes → Except Int XItem)
    (nosplitMode : Bool) (pageShift stripe : Nat) (calcId : Nat → Nat)
    (dst : Option Nat) :
    Nat → XItem → Nat → Option Nat → List MigAct → MigOutcome
  | 0, _, blocks, doneOff, acts => ⟨-1, doneOff, blocks, acts⟩
  | fuel + 1, item, blocks, doneOff, acts =>
    let w := what_to_do nosplitMode pageShift stripe calcId dst item
    match w.act with
    | MigAct.skipExtent =>
      ⟨0, some w.stopOff, blocks, acts ++ [MigAct.skipExtent]⟩
    | MigAct.splitExtent =>
      match doSpl item w with
      | Except.error e => ⟨e, doneOff, blocks, acts ++ [MigAct.splitExtent]⟩
      | Except.ok item' =>
        reiser4_migrate_extent doMig doSpl nosplitMode pageShift stripe
          calcId dst fuel item' blocks doneOff (acts ++ [MigAct.splitExtent])
    | MigAct.migrateExtent =>
      match doMig item w with
      | Except.error e =>
        ⟨e, doneOff, blocks, acts ++ [MigAct.migrateExtent]⟩
      | Except.ok (item', nr, stopFlag) =>
        if stopFlag then
          ⟨0, some w.stopOff, blocks + nr, acts ++ [MigAct.migrateExtent]⟩
        else
          reiser4_migrate_extent doMig doSpl nosplitMode pageShift stripe
            calcId dst fuel item' (blocks + nr) (some w.stopOff)
            (acts ++ [MigAct.migrateExtent])
    | MigAct.invalidAction => ⟨-1, doneOff, blocks, acts⟩

/-! ## Volume operation dispatchers (src/volume_ops.c) -/

def EBUSY : Int := 16

def ENOTTY : Int := 25

/-- The opcodes the two on-line dispatchers switch over, plus a carrier
for any other opcode value (the enum itself is declared outside the
sources at hand). -/
inductive VolOpcode where
  | printVolume
  | printBrick
  | resizeBrick
  | addBrick
  | addProxy
  | removeBrick
  | scaleVolume
  | balanceVolume
  | migrateFile
  | setFileImmobile
  | clrFileImmobile
  | unknownOp (code : Nat)
deriving DecidableEq

/-- Return values of the directory-level operation handlers; their own
effects live behind interfaces outside this fragment. -/
structure DirOps where
  printVolume : Int
  printBrick : Int
  resizeBrick : Int
  addBrick : Int
  addProxy : Int
  removeBrick : Int
  scaleVolume : Int
  balanceVolume : Int

/-- Return values of the file-level operation handlers. -/
structure FileOps where
  migrateFile : Int
  setFileImmobile : Int
  clrFileImmobile : Int

/-- Opcodes the directory dispatcher supports. -/
def dirSupported : VolOpcode → Bool
  | VolOpcode.printVolume => true
  | VolOpcode.printBrick => true
  | VolOpcode.resizeBrick => true
  | VolOpcode.addBrick => true
  | VolOpcode.addProxy => true
  | VolOpcode.removeBrick => true
  | VolOpcode.scaleVolume => true
  | VolOpcode.balanceVolume => true
  | _ => false

/-- Opcodes the file dispatcher supports. -/
def fileSupported : VolOpcode → Bool
  | VolOpcode.migrateFile => true
  | VolOpcode.setFileImmobile => true
  | VolOpcode.clrFileImmobile => true
  | _ => false

/-- Embedding of reiser4_volume_op_dir (volume_ops.c:465-513).  The
busy flag is the volume state; test-and-set failure returns -EBUSY at
once and leaves the flag (held by the other operation) set.  Otherwise
the opcode is dispatched — every case of the switch, the unsupported
default included, falls through to the single clear-busy exit — and the
flag is cleared before returning. -/
def reiser4_volume_op_dir (busy : Bool) (env : DirOps) (op : VolOpcode) :
    Int × Bool :=
  if busy then (-EBUSY, busy)
  else
    let ret : Int :=
      match op with
      | VolOpcode.printVolume => env.printVolume
      | VolOpcode.printBrick => env.printBrick
      | VolOpcode.resizeBrick => env.resizeBrick
      | VolOpcode.addBrick => env.addBrick
      | VolOpcode.addProxy => env.addProxy
      | VolOpcode.removeBrick => env.removeBrick
      | VolOpcode.scaleVolume => env.scaleVolume
      | VolOpcode.balanceVolume => env.balanceVolume
      | _ => -ENOTTY
    (ret, false)

/-- Embedding of reiser4_volume_op_file (volume_ops.c:515-548). -/
def reiser4_volume_op_file (busy : Bool) (env : FileOps) (op : VolOpcode) :
    Int × Bool :=
  if busy then (-EBUSY, busy)
  else
    let ret : Int :=
      match op with
      | VolOpcode.migrateFile => env.migrateFile
      | VolOpcode.setFileImmobile => env.setFileImmobile
      | VolOpcode.clrFileImmobile => env.clrFileImmobile
      | _ => -ENOTTY
    (ret, false)

/-! ## Settled claims -/

/-- Counterexample to claim C2 as stated: at num = 1, val = 2^32 and
capacity 2^32 the product val * cap overflows u64, the computed floor
is 0 instead of 2^32, and the remainder loop would run 2^32 iterations
past the one-element output array; the code does not produce the
floor-plus-remainder distribution the claim asserts for every budget
(here that would be the list [2^32] with sum equal to the budget). -/
theorem C2_counterexample :
    calibrate64 1 (2 ^ 32) (fun _ => 2 ^ 32) = Except.error CalErr.oob ∧
    calExact 1 (2 ^ 32) (fun _ => 2 ^ 32) = [2 ^ 32] := by
  constructor
  · rfl
  · rfl

/-- Claim C2, amended with no-overflow side conditions: whenever the
capacity sum is positive and neither the sum nor any product
val * cap i wraps u64 and the budget fits the element width, calibrate
produces exactly out i = floor(val * cap i / S) plus one extra unit for
each index i below the remainder, the extras going to the first indices
in order, and the outputs sum to the budget val. -/
theorem C2_calibrate_floor_remainder (mask num val : Nat) (cap : Nat → Nat)
    (h1 : 0 < sumF num cap) (h2 : sumF num cap < U64)
    (h3 : ∀ i, i < num → val * cap i < U64)
    (h4 : val < mask) (h5 : mask ≤ U64) :
    calibrate mask num val cap = Except.ok (calExact num val cap) ∧
    (calExact num val cap).sum = val :=
  ⟨calibrate_eq_calExact mask num val cap h1 h2 h3 h4 h5,
   calExact_sum num val cap h1⟩

/-- Witness for C2 at num = 2, val = 1024, capacities 1 and 2. -/
theorem C2_witness :
    calibrate32 2 1024 (fun i => i + 1)
      = Except.ok (calExact 2 1024 (fun i => i + 1)) ∧
    (calExact 2 1024 (fun i => i + 1)).sum = 1024 :=
  C2_calibrate_floor_remainder U32 2 1024 (fun i => i + 1)
    (by decide) (by decide) (by decide) (by decide) (by decide)

/-- Counterexample to claim C3 as stated: with capacities
1000, 1001, 1000 and budget 1024 the floors coincide at 341 and the
single remainder unit goes to index 0, so out 0 = 342 exceeds
out 1 = 341 although bucket 1 has the strictly larger capacity — the
asserted monotonicity out i ≥ out j whenever cap i ≥ cap j fails (no
tie is involved). -/
theorem C3_counterexample :
    calibrate64 3 1024 (fun i => if i = 1 then 1001 else 1000)
      = Except.ok [342, 341, 341] ∧
    (fun i => if i = 1 then 1001 else 1000 : Nat → Nat) 0
      ≤ (fun i => if i = 1 then 1001 else 1000 : Nat → Nat) 1 ∧
    ¬ ([342, 341, 341].getD 1 0 ≥ [342, 341, 341].getD 0 0) := by
  refine ⟨by rfl, by decide, by decide⟩

theorem mapRange_getD {num k : Nat} (f : Nat → Nat) (h : k < num) :
    ((List.range num).map f).getD k 0 = f k := by
  rw [List.getD_eq_getElem?_getD, List.getElem?_map, List.getElem?_range h]
  rfl

/-- Claim C3, amended: under the no-overflow side conditions, the
calibrate output is monotone in capacity for pairs in index order: for
i ≤ j with cap j ≤ cap i, out j ≤ out i (so ties, and in general the
remainder distribution, favor the earlier index; for i > j a larger
capacity may still lose by the one remainder unit, as the
counterexample shows). -/
theorem C3_calibrate_monotone (mask num val : Nat) (cap : Nat → Nat)
    (h1 : 0 < sumF num cap) (h2 : sumF num cap < U64)
    (h3 : ∀ i, i < num → val * cap i < U64)
    (h4 : val < mask) (h5 : mask ≤ U64)
    (i j : Nat) (hij : i ≤ j) (hj : j < num) (hcap : cap j ≤ cap i)
    (out : List Nat) (hout : calibrate mask num val cap = Except.ok out) :
    out.getD j 0 ≤ out.getD i 0 := by
  rw [calibrate_eq_calExact mask num val cap h1 h2 h3 h4 h5] at hout
  simp only [Except.ok.injEq] at hout
  subst hout
  have hcE : calExact num val cap
      = (List.range num).map (fun k =>
          val * cap k / sumF num cap +
          if k < val - sumF num (fun t => val * cap t / sumF num cap)
          then 1 else 0) := rfl
  rw [hcE, mapRange_getD _ hj, mapRange_getD _ (show i < num by omega)]
  have hfl : val * cap j / sumF num cap ≤ val * cap i / sumF num cap :=
    Nat.div_le_div_right (Nat.mul_le_mul (Nat.le_refl val) hcap)
  by_cases hjr : j < val - sumF num (fun t => val * cap t / sumF num cap)
  · rw [if_pos hjr,
        if_pos (show i < val - sumF num (fun t => val * cap t / sumF num cap)
          by omega)]
    omega
  · rw [if_neg hjr]
    by_cases hir : i < val - sumF num (fun t => val * cap t / sumF num cap)
    · rw [if_pos hir]; omega
    · rw [if_neg hir]; omega

/-- Witness for C3 at capacities 2, 1 and budget 1024: out = [683, 341]. -/
theorem C3_witness :
    ([683, 341] : List Nat).getD 1 0 ≤ ([683, 341] : List Nat).getD 0 0 :=
  C3_calibrate_monotone U32 2 1024 (fun i => 2 - i)
    (by decide) (by decide) (by decide) (by decide) (by decide)
    0 1 (by decide) (by decide) (by decide) [683, 341] (by rfl)

/-- Counterexample to claim C10 as stated: a positive capacity sum is
not enough for the division to be well-defined, because the sum is
accumulated modulo 2^64 — two capacities of 2^63 have positive exact
sum yet the code divides by the wrapped sum 0. -/
theorem C10_counterexample :
    0 < sumF 2 (fun _ => 2 ^ 63) ∧
    calibrate64 2 10 (fun _ => 2 ^ 63) = Except.error CalErr.divByZero := by
  exact ⟨by decide, by rfl⟩

/-- Claim C10, amended: the zero-divisor branch of calibrate is
unreachable once the exact capacity sum is positive AND below 2^64 (so
that the modular accumulation does not wrap); positivity alone is not
enough. -/
theorem C10_no_div_by_zero (mask num val : Nat) (cap : Nat → Nat)
    (h1 : 0 < sumF num cap) (h2 : sumF num cap < U64) :
    calibrate mask num val cap ≠ Except.error CalErr.divByZero := by
  intro hcon
  simp only [calibrate] at hcon
  have hneg : ¬ (0 < num ∧ sumMod num cap = 0) := by
    rw [sumMod_eq_sumF h2]; omega
  rw [if_neg hneg] at hcon
  split at hcon <;> simp at hcon

/-- Witness for C10 at two capacities of 3. -/
theorem C10_witness :
    calibrate U64 2 100 (fun _ => 3) ≠ Except.error CalErr.divByZero :=
  C10_no_div_by_zero U64 2 100 (fun _ => 3) (by decide) (by decide)

/-- Claim C6: the code does NOT accept removeme == NULL — balance_dec
reads removeme->fib into a local (fsx32.c:397) before the
removeme == NULL test (fsx32.c:423), so the embedded balance_dec maps
a missing victim bucket to the null-dereference error for every other
argument value, instead of the pure re-weight the claim describes. -/
theorem C6_dec_null_removeme_derefs (newNumb : Nat) (tab oldW newW : List Nat)
    (targetPos : Nat) (vec : List Bucket) :
    balance_dec newNumb tab oldW newW targetPos vec none
      = Except.error FsxErr.nullDeref :=
  rfl

/-- Claim C7: for every in-bounds offset and count over a table of
32-bit entries, unpack_fsx32 inverts pack_fsx32 — packing count
entries from src_off to little-endian bytes and unpacking them back
over the same range reproduces the table. -/
theorem C7_unpack_pack_roundtrip (tab : List Nat) (srcOff count : Nat)
    (hb : srcOff + count ≤ tab.length) (hw : ∀ x ∈ tab, x < 2 ^ 32) :
    unpack_fsx32 tab (pack_fsx32 tab srcOff count) srcOff count = tab :=
  unpack_pack tab count srcOff hb hw

/-- Witness for C7 on a three-entry table, packing the last two. -/
theorem C7_witness :
    unpack_fsx32 [1, 4294967295, 70000]
        (pack_fsx32 [1, 4294967295, 70000] 1 2) 1 2
      = [1, 4294967295, 70000] :=
  C7_unpack_pack_roundtrip [1, 4294967295, 70000] 1 2 (by decide) (by decide)

/-- Claim C4: reconfiguration minimality of inc and dec.  When
balance_inc succeeds — on a vector of distinct brick ids whose fibers
are the canonical fibers of the table — the number of table slots whose
id changes equals the sum over the survivors of max(0, old weight - new
weight) (the u32 excesses); when balance_dec succeeds with a victim
bucket holding the canonical fiber of an id no survivor has, the
changed-slot count is that same survivor sum plus the victim's whole
weight.  incPairs / decPairs pair each survivor's position in the new
vector with its position in the old one, exactly as the C loops index
the two weight arrays. -/
theorem C4_reconfiguration_minimality :
    (∀ (newNumb : Nat) (tab oldW newW : List Nat) (targetPos : Nat)
        (vec : List Bucket) (isNew : Bool) (tab' : List Nat),
      balance_inc newNumb tab oldW newW targetPos vec isNew
        = Except.ok tab' →
      (vec.map Bucket.id).Nodup →
      newNumb ≤ vec.length →
      targetPos < newNumb →
      (∀ p ∈ incPairs targetPos newNumb isNew,
        fiber_at vec p.1 = canonFiber tab (idx2id vec p.1)) →
      countDiff tab tab' =
        ((incPairs targetPos newNumb isNew).map
          fun p => oldW.getD p.2 0 - newW.getD p.1 0).sum) ∧
    (∀ (newNumb : Nat) (tab oldW newW : List Nat) (targetPos : Nat)
        (vec : List Bucket) (victim : Bucket) (tab' : List Nat),
      balance_dec newNumb tab oldW newW targetPos vec (some victim)
        = Except.ok tab' →
      targetPos ≤ newNumb →
      victim.fib = canonFiber tab victim.id →
      victim.fib.length = oldW.getD targetPos 0 →
      (∀ i, i < newNumb → idx2id vec i ≠ victim.id) →
      ((decPairs targetPos newNumb true).map fun p => newW.getD p.1 0).sum
        = ((decPairs targetPos newNumb true).map
            fun p => oldW.getD p.2 0).sum + oldW.getD targetPos 0 →
      countDiff tab tab' =
        ((decPairs targetPos newNumb true).map
          fun p => oldW.getD p.2 0 - newW.getD p.1 0).sum
        + oldW.getD targetPos 0) :=
  ⟨fun _ _ _ _ _ _ _ _ hok hids hlen htp hfib =>
     balance_inc_count hok hids hlen htp hfib,
   fun _ _ _ _ _ _ _ _ hok htp hvfib hvw hvid hsum =>
     balance_dec_count hok htp hvfib hvw hvid hsum⟩

/-- Witness for C4: an inc stealing one slot for a new third brick, and
a dec redistributing a two-slot victim fiber to two survivors. -/
theorem C4_witness :
    (countDiff [5, 5, 6, 6] [5, 5, 6, 7] =
      ((incPairs 2 3 true).map
        fun p => ([2, 2] : List Nat).getD p.2 0
          - ([2, 1, 1] : List Nat).getD p.1 0).sum) ∧
    (countDiff [9, 5, 9, 6] [5, 5, 6, 6] =
      ((decPairs 0 2 true).map
        fun p => ([2, 1, 1] : List Nat).getD p.2 0
          - ([2, 2] : List Nat).getD p.1 0).sum
        + ([2, 1, 1] : List Nat).getD 0 0) :=
  ⟨C4_reconfiguration_minimality.1 3 [5, 5, 6, 6] [2, 2] [2, 1, 1] 2
     [⟨5, 1, [0, 1]⟩, ⟨6, 1, [2, 3]⟩, ⟨7, 1, []⟩] true [5, 5, 6, 7]
     (by rfl) (by decide) (by decide) (by decide) (by decide),
   C4_reconfiguration_minimality.2 2 [9, 5, 9, 6] [2, 1, 1] [2, 2] 0
     [⟨5, 1, [1]⟩, ⟨6, 1, [3]⟩] ⟨9, 1, [0, 2]⟩ [5, 5, 6, 6]
     (by rfl) (by decide) (by decide) (by decide) (by decide) (by decide)⟩

/-- Counterexample to claim C5 as stated: over capacities 1, 1, 1, 2
the freshly computed new weights are [2, 2, 1, 3], but the pure-stretch
path (taken because nums = numb here, so nums · factor mod numb = 0)
publishes the stretched table unchanged, in which brick 13 keeps 2
slots against its new weight 1 — the stretched table is NOT calibrated
against the new weights when capacities are unequal. -/
theorem C5_counterexample :
    calibrate32 4 8
        (cap_at [⟨11, 1, []⟩, ⟨12, 1, []⟩, ⟨13, 1, []⟩, ⟨14, 2, []⟩])
      = Except.ok [2, 2, 1, 3] ∧
    balance_spl 4 2 [11, 12, 13, 14] [1, 1, 1, 1] [2, 2, 1, 3] 1
        [⟨11, 1, []⟩, ⟨12, 1, []⟩, ⟨13, 1, []⟩, ⟨14, 2, []⟩]
      = Except.ok [11, 11, 12, 12, 13, 13, 14, 14] ∧
    ¬ ([11, 11, 12, 12, 13, 13, 14, 14].count
        (idx2id [⟨11, 1, []⟩, ⟨12, 1, []⟩, ⟨13, 1, []⟩, ⟨14, 2, []⟩] 2)
        = ([2, 2, 1, 3] : List Nat).getD 2 0) := by
  refine ⟨by rfl, by rfl, by decide⟩

/-- Claim C5, amended.  Part one: whenever numb divides nums · factor
(and numb ≤ nums, both powers of two), balance_spl is a pure stretch —
it succeeds with the stretched table, whose slot s carries the id of
old slot s / factor, so each old slot's id fills its factor consecutive
new slots and nothing is relocated.  Part two: the stretched table is
perfectly calibrated against the freshly computed new weights only in
the equal-capacity case — with every capacity c, the new weights are
uniform at newNums / numb and a brick holding its old share
nums / numb of the table holds exactly its new weight after the
stretch. -/
theorem C5_spl_pure_stretch :
    (∀ (numb numsBits : Nat) (tab oldW newW : List Nat) (factBits : Nat)
        (vec : List Bucket),
      0 < numb → numb ≤ 2 ^ numsBits →
      numb ∣ 2 ^ numsBits * 2 ^ factBits →
      balance_spl numb numsBits tab oldW newW factBits vec
        = Except.ok (stretchTab tab (2 ^ factBits)) ∧
      ∀ s, s < tab.length * 2 ^ factBits →
        (stretchTab tab (2 ^ factBits)).getD s 0
          = tab.getD (s / 2 ^ factBits) 0) ∧
    (∀ (numb numsBits factBits c i : Nat) (tab : List Nat),
      0 < c → 0 < numb → numb ≤ 2 ^ numsBits →
      numb ∣ 2 ^ numsBits * 2 ^ factBits → i < numb →
      numb * c < U64 → 2 ^ (numsBits + factBits) * c < U64 →
      2 ^ (numsBits + factBits) < U32 →
      ∀ x, tab.count x = 2 ^ numsBits / numb →
      calibrate32 numb (2 ^ (numsBits + factBits)) (fun _ => c)
        = Except.ok
            (List.replicate numb (2 ^ (numsBits + factBits) / numb)) ∧
      (stretchTab tab (2 ^ factBits)).count x
        = (List.replicate numb
            (2 ^ (numsBits + factBits) / numb)).getD i 0) := by
  constructor
  · intro numb numsBits tab oldW newW factBits vec hnumb hle hdvd
    have h0 : 2 ^ numsBits % numb = 0 := by
      obtain ⟨m, hm⟩ := dvd_pow_two_of_le hdvd hle
      rw [hm]
      exact Nat.mul_mod_right numb m
    constructor
    · simp only [balance_spl]
      rw [if_pos h0]
    · intro s hs
      exact stretchTab_getD (Nat.pow_pos (by omega)) hs
  · intro numb numsBits factBits c i tab hc hnumb hle hdvd hi hS hq hval
      x hcount
    obtain ⟨m, hm2⟩ := dvd_pow_two_of_le hdvd hle
    have hdnb : numb ∣ 2 ^ numsBits := ⟨m, hm2⟩
    constructor
    · exact calibrate_const U32 numb (2 ^ (numsBits + factBits)) c hc hnumb
        (Dvd.dvd.trans hdnb (pow_dvd_pow 2 (Nat.le_add_right numsBits
          factBits))) hS hq hval (by norm_num [U32, U64])
    · have hget : (List.replicate numb
          (2 ^ (numsBits + factBits) / numb)).getD i 0
          = 2 ^ (numsBits + factBits) / numb := by
        rw [List.getD_eq_getElem?_getD, List.getElem?_replicate, if_pos hi]
        rfl
      rw [hget, stretchTab_count, hcount]
      have hnew : 2 ^ (numsBits + factBits) = numb * (m * 2 ^ factBits) := by
        rw [Nat.pow_add, hm2]; ring
      rw [hm2, Nat.mul_div_cancel_left m hnumb, hnew,
        Nat.mul_div_cancel_left _ hnumb]
      exact Nat.mul_comm _ _

/-- Witness for C5: a pure-stretch spl on a two-brick table, and the
equal-capacity calibration at capacity 5. -/
theorem C5_witness :
    balance_spl 2 1 [3, 4] [1, 1] [2, 2] 1 []
      = Except.ok (stretchTab [3, 4] (2 ^ 1)) ∧
    (calibrate32 2 (2 ^ (1 + 1)) (fun _ => 5)
        = Except.ok (List.replicate 2 (2 ^ (1 + 1) / 2)) ∧
      (stretchTab [3, 4] (2 ^ 1)).count 3
        = (List.replicate 2 (2 ^ (1 + 1) / 2)).getD 0 0) :=
  ⟨(C5_spl_pure_stretch.1 2 1 [3, 4] [1, 1] [2, 2] 1 []
      (by decide) (by decide) (by decide)).1,
   C5_spl_pure_stretch.2 2 1 1 5 0 [3, 4]
     (by decide) (by decide) (by decide) (by decide) (by decide)
     (by decide) (by decide) (by decide) 3 (by decide)⟩

/-- Claim C1: refuted — the invariant is not preserved by spl.  initv
on a calibrated 8-slot table over capacities 1, 1, 1, 2 followed by a
successful spl with fact_bits 1 yields a state whose weights still sum
to 2 ^ nums_bits but whose table holds 4 slots of brick 12 against its
recorded weight 3: the pure-stretch path of balance_spl publishes the
doubled table although the freshly calibrated weights of unequal
capacities are not the doubled old ones. -/
theorem C1_spl_breaks_weight_invariant :
    ∃ st : Dcx,
      (match initv_fsx32 (some [11, 11, 12, 12, 13, 14, 14, 14]) 4 3
          [⟨11, 1, []⟩, ⟨12, 1, []⟩, ⟨13, 1, []⟩, ⟨14, 2, []⟩] with
        | Except.error e => Except.error e
        | Except.ok (st1, vec1) => spl_fsx32 st1 vec1 1) = Except.ok st ∧
      st.weights.sum = 2 ^ st.numsBits ∧
      idx2id [⟨11, 1, []⟩, ⟨12, 1, []⟩, ⟨13, 1, []⟩, ⟨14, 2, []⟩] 1 = 12 ∧
      st.weights.getD 1 0 = 3 ∧
      st.tab.count 12 = 4 := by
  refine ⟨⟨4, 4, [4, 3, 3, 6],
      [11, 11, 11, 11, 12, 12, 12, 12, 13, 13, 14, 14, 14, 14, 14, 14]⟩,
    by rfl, by decide, by decide, by decide, by decide⟩

/-- Claim C8: migration idempotence.  For a nonempty extent item whose
stripes all map to the requested destination — calc_id is the
destination id on every stripe-aligned offset of the item's window and
the item's key ordering already equals that id — what_to_do selects
SKIP_EXTENT with stop set and stop_off at the item's key offset, and
the reiser4_migrate_extent loop, whatever tree-modifying handlers it is
given, terminates on that item at once with return 0, done_off
published as the item's key offset, and no blocks migrated beyond the
count it started with. -/
theorem C8_migration_idempotent (k pageShift d : Nat) (item : XItem)
    (calcId : Nat → Nat)
    (hord : item.ordering = d)
    (hcalc : ∀ o, 2 ^ k ∣ o → normStripe item.keyOff (2 ^ k) ≤ o →
      o ≤ normStripe (item.keyOff + item.size - 1) (2 ^ k) → calcId o = d) :
    what_to_do false pageShift (2 ^ k) calcId (some d) item
      = ⟨MigAct.skipExtent, true, item.keyOff, d, false⟩ ∧
    ∀ (doMig : XItem → WtdRes → Except Int (XItem × Nat × Bool))
      (doSpl : XItem → WtdRes → Except Int XItem)
      (fuel blocks : Nat) (doneOff : Option Nat) (acts : List MigAct),
      reiser4_migrate_extent doMig doSpl false pageShift (2 ^ k) calcId
          (some d) (fuel + 1) item blocks doneOff acts
        = ⟨0, some item.keyOff, blocks, acts ++ [MigAct.skipExtent]⟩ := by
  have hoff : findSplitOff calcId d (2 ^ k)
      (normStripe item.keyOff (2 ^ k))
      (normStripe (item.keyOff + item.size - 1) (2 ^ k)) = none :=
    findSplitOff_none (normStripe_dvd _ k) (normStripe_dvd _ k)
      (fun o h1 h2 h3 => hcalc o h1 h2 (Nat.le_of_lt h3))
  have hw : what_to_do false pageShift (2 ^ k) calcId (some d) item
      = ⟨MigAct.skipExtent, true, item.keyOff, d, false⟩ := by
    show (match findSplitOff calcId d (2 ^ k)
        (normStripe item.keyOff (2 ^ k))
        (normStripe (item.keyOff + item.size - 1) (2 ^ k)) with
      | none =>
        if d ≠ item.ordering then
          (⟨MigAct.migrateExtent, false, item.keyOff, d, true⟩ : WtdRes)
        else ⟨MigAct.skipExtent, true, item.keyOff, d, false⟩
      | some splitOff =>
        if d ≠ item.ordering then
          ⟨MigAct.migrateExtent, false, splitOff, d, false⟩
        else ⟨MigAct.splitExtent, false, splitOff, d, false⟩)
      = (⟨MigAct.skipExtent, true, item.keyOff, d, false⟩ : WtdRes)
    rw [hoff]
    show (if d ≠ item.ordering then
        (⟨MigAct.migrateExtent, false, item.keyOff, d, true⟩ : WtdRes)
      else ⟨MigAct.skipExtent, true, item.keyOff, d, false⟩)
      = (⟨MigAct.skipExtent, true, item.keyOff, d, false⟩ : WtdRes)
    rw [if_neg (show ¬ d ≠ item.ordering from fun hne => hne hord.symm)]
  refine ⟨hw, ?_⟩
  intro doMig doSpl fuel blocks doneOff acts
  simp only [reiser4_migrate_extent]
  rw [hw]

/-- Witness for C8: a two-stripe item living where it should, migrated
with dummy handlers. -/
theorem C8_witness :
    what_to_do false 0 (2 ^ 12) (fun _ => 7) (some 7) ⟨0, 8192, 7⟩
      = ⟨MigAct.skipExtent, true, 0, 7, false⟩ ∧
    reiser4_migrate_extent (fun _ _ => Except.error 0)
        (fun _ _ => Except.error 0) false 0 (2 ^ 12) (fun _ => 7) (some 7)
        1 ⟨0, 8192, 7⟩ 0 none []
      = ⟨0, some 0, 0, [MigAct.skipExtent]⟩ :=
  ⟨(C8_migration_idempotent 12 0 7 ⟨0, 8192, 7⟩ (fun _ => 7) rfl
      (fun _ _ _ _ => rfl)).1,
   (C8_migration_idempotent 12 0 7 ⟨0, 8192, 7⟩ (fun _ => 7) rfl
      (fun _ _ _ _ => rfl)).2 (fun _ _ => Except.error 0)
     (fun _ _ => Except.error 0) 0 0 none []⟩

/-- Claim C9: for every opcode and handler environment, a dispatcher
that finds the busy flag set returns -EBUSY at once leaving the flag to
its holder; when the flag was clear, every path through either
dispatcher — all supported opcodes and the unsupported default alike —
returns with the flag cleared, and an opcode a dispatcher does not
support yields -ENOTTY. -/
theorem C9_busy_flag_discipline (busy : Bool) (denv : DirOps)
    (fenv : FileOps) (op : VolOpcode) :
    (busy = true →
      reiser4_volume_op_dir busy denv op = (-EBUSY, true) ∧
      reiser4_volume_op_file busy fenv op = (-EBUSY, true)) ∧
    (busy = false →
      (reiser4_volume_op_dir busy denv op).2 = false ∧
      (reiser4_volume_op_file busy fenv op).2 = false) ∧
    (busy = false → dirSupported op = false →
      (reiser4_volume_op_dir busy denv op).1 = -ENOTTY) ∧
    (busy = false → fileSupported op = false →
      (reiser4_volume_op_file busy fenv op).1 = -ENOTTY) := by
  refine ⟨fun hb => ?_, fun hb => ?_, fun hb hs => ?_, fun hb hs => ?_⟩ <;>
    subst hb
  · exact ⟨rfl, rfl⟩
  · exact ⟨rfl, rfl⟩
  · cases op <;> simp_all [reiser4_volume_op_dir, dirSupported]
  · cases op <;> simp_all [reiser4_volume_op_file, fileSupported]

/-- Witness for C9: a busy directory call bounces, and a file call with
an opcode outside the file switch returns -ENOTTY. -/
theorem C9_witness :
    reiser4_volume_op_dir true ⟨0, 0, 0, 0, 0, 0, 0, 0⟩ VolOpcode.addBrick
      = (-EBUSY, true) ∧
    (reiser4_volume_op_file false ⟨0, 0, 0⟩ (VolOpcode.unknownOp 99)).1
      = -ENOTTY :=
  ⟨((C9_busy_flag_discipline true ⟨0, 0, 0, 0, 0, 0, 0, 0⟩ ⟨0, 0, 0⟩
      VolOpcode.addBrick).1 rfl).1,
   (C9_busy_flag_discipline false ⟨0, 0, 0, 0, 0, 0, 0, 0⟩ ⟨0, 0, 0⟩
      (VolOpcode.unknownOp 99)).2.2.2 rfl rfl⟩

end Fsx32
